import Mathlib

/-!
Verification of the WebP→PNG batch converter (src/App.tsx and
src/components/FileUpload.tsx).

The embedding models the controller state (`files`, `isConvertingAll`,
`globalError`) of `App.tsx` together with the browser's object-URL registry
(`URL.createObjectURL` / `URL.revokeObjectURL`).  Object URLs are modelled by
`Url.obj n` where `n` is a freshness counter standing for the browser's
allocation of a unique blob URL; data URLs (produced by
`canvas.toDataURL('image/png')`) are `Url.data s`.  `crypto.randomUUID` is
modelled by the `nextId` counter: the only property the program relies on is
global freshness of the generated ids.  The host platform's image decode /
canvas encode, reachable only through the promise inside `handleConvertAll`,
is modelled by an oracle `env : Url → ConvOutcome` giving, for each source
URL, either the produced PNG data-URL payload, a canvas-context acquisition
failure (`ctx.getContext('2d')` returning null), or a decode failure
(`image.onerror`).
-/

inductive Status where
  | pending
  | converting
  | converted
  | error
deriving DecidableEq, Repr

/-- A URL value: `obj n` is an object URL handed out by
`URL.createObjectURL` (a registry entry), `data s` is a `data:` URL (not a
registry entry; `URL.revokeObjectURL` on it is a no-op). -/
inductive Url where
  | obj (n : Nat)
  | data (s : String)
deriving DecidableEq, Repr

/-- A user-supplied file: the fields of the DOM `File` the program reads.
The name is a character list so that the download-filename computation can be
reasoned about with list operations. -/
structure File where
  name : List Char
  size : Nat
  type : String
deriving DecidableEq, Repr

/-- The `FileItem` interface of `App.tsx` (lines 7–14).  `error` is the
optional `error?: string` field. -/
structure FileItem where
  id : Nat
  file : File
  webpUrl : Url
  pngUrl : Option Url
  status : Status
  error : Option String
deriving DecidableEq, Repr

/-- The controller state of `App.tsx`: the three `useState` cells, plus the
ghost state of the id generator, the object-URL allocator, and the browser's
URL registry (`createdUrls` records every object URL ever handed out,
`revoked` records every release event). -/
structure AppState where
  files : List FileItem
  isConvertingAll : Bool
  globalError : String
  nextId : Nat
  nextUrl : Nat
  createdUrls : List Url
  revoked : List Url
deriving DecidableEq, Repr

/-- Outcome of the host platform's decode/encode for one source URL:
`ok png` is a successful `canvas.toDataURL('image/png')` with payload `png`,
`ctxError` is `canvas.getContext('2d')` returning null, `loadError` is the
image failing to decode (`image.onerror`). -/
inductive ConvOutcome where
  | ok (png : String)
  | ctxError
  | loadError
deriving DecidableEq, Repr

/-- The observable effect of `handleDownload`: the anchor's `href` and
`download` attributes. -/
structure DownloadAction where
  href : Url
  filename : List Char
deriving DecidableEq, Repr

/-- The MIME check `file.type === 'image/webp'` of `handleFileSelect`. -/
def accept (f : File) : Bool := f.type == "image/webp"

/-- The items pushed onto `newValidFiles` by `handleFileSelect`: one per
accepted file, in input order, each with a fresh id (`crypto.randomUUID`)
and a fresh object URL (`URL.createObjectURL(file)`). -/
def mkNewItems : List File → Nat → Nat → List FileItem
  | [], _, _ => []
  | f :: rest, nid, nurl =>
    if accept f then
      { id := nid, file := f, webpUrl := Url.obj nurl, pngUrl := none,
        status := Status.pending, error := none } :: mkNewItems rest (nid + 1) (nurl + 1)
    else
      mkNewItems rest nid nurl

/-- The aggregate message set by `handleFileSelect` when files are skipped. -/
def skippedMsg (n : Nat) : String :=
  s!"Skipped {n} non-WebP file(s). Please upload valid .webp files."

/-- `handleFileSelect` of `App.tsx` (lines 26–52): clears the global error,
partitions the selection by MIME type, appends the accepted files as pending
items (the `setFiles` call is guarded by `newValidFiles.length > 0`, which
does not change the resulting list), and reports rejected files through a
single aggregate message. -/
def handleFileSelect (sel : List File) (st : AppState) : AppState :=
  let newValid := mkNewItems sel st.nextId st.nextUrl
  let invalidCount := (sel.filter (fun f => ! accept f)).length
  let st1 : AppState :=
    { st with
      globalError := "",
      files := if 0 < newValid.length then st.files ++ newValid else st.files,
      nextId := st.nextId + newValid.length,
      nextUrl := st.nextUrl + newValid.length,
      createdUrls := st.createdUrls ++ newValid.map (fun f => f.webpUrl) }
  if 0 < invalidCount then { st1 with globalError := skippedMsg invalidCount } else st1

/-- Is this item's status `pending`?  (`f.status === 'pending'`). -/
def isPending (f : FileItem) : Bool :=
  match f.status with
  | Status.pending => true
  | _ => false

/-- One `setFiles(prev => prev.map(f => f.id === item.id ? h(f) : f))` call. -/
def updateItem (tid : Nat) (h : FileItem → FileItem) (fs : List FileItem) : List FileItem :=
  fs.map (fun f => if f.id == tid then h f else f)

/-- The first `setFiles` of the loop body: mark the current item converting. -/
def markConverting (tid : Nat) (fs : List FileItem) : List FileItem :=
  updateItem tid (fun f => { f with status := Status.converting }) fs

/-- The promise awaited inside `handleConvertAll`: resolves with the PNG
data-URL payload, or rejects with `'Canvas context error.'` (null 2d
context) or `'Image load failed.'` (`image.onerror`). -/
def runConversion (env : Url → ConvOutcome) (src : Url) : Except String String :=
  match env src with
  | ConvOutcome.ok png => Except.ok png
  | ConvOutcome.ctxError => Except.error "Canvas context error."
  | ConvOutcome.loadError => Except.error "Image load failed."

/-- The second `setFiles` of the loop body: record the settled promise for
item `it` — on success status `converted` with the data URL, on rejection
status `error` with the rejection message (`error.message`, always non-empty
here, so the `|| 'Conversion failed.'` fallback never fires). -/
def applyOutcome (env : Url → ConvOutcome) (it : FileItem) (fs : List FileItem) : List FileItem :=
  match runConversion env it.webpUrl with
  | Except.ok png =>
      updateItem it.id
        (fun f => { f with status := Status.converted, pngUrl := some (Url.data png) }) fs
  | Except.error msg =>
      updateItem it.id (fun f => { f with status := Status.error, error := some msg }) fs

/-- One iteration of the `for (const item of filesToConvert)` loop. -/
def convStep (env : Url → ConvOutcome) (it : FileItem) (fs : List FileItem) : List FileItem :=
  applyOutcome env it (markConverting it.id fs)

/-- The whole loop of `handleConvertAll`, iterating over the snapshot of
pending items. -/
def convLoop (env : Url → ConvOutcome) : List FileItem → List FileItem → List FileItem
  | [], fs => fs
  | it :: rest, fs => convLoop env rest (convStep env it fs)

/-- `handleConvertAll` of `App.tsx` (lines 54–93): snapshot the pending
items; if none, return before touching any state; otherwise run the loop
(setting `isConvertingAll` true for its duration and false at the end). -/
def handleConvertAll (env : Url → ConvOutcome) (st : AppState) : AppState :=
  if (st.files.filter isPending).length = 0 then st
  else
    { st with
      isConvertingAll := false,
      files := convLoop env (st.files.filter isPending) st.files }

/-- The characters of the literal `".webp"`. -/
def webpExt : List Char := ['.', 'w', 'e', 'b', 'p']

/-- The characters of the literal `".png"`. -/
def pngExt : List Char := ['.', 'p', 'n', 'g']

/-- `item.file.name.replace(/\.webp$/, '.png')`: the anchored, case-sensitive
regex replaces a final `".webp"` and leaves any other name unchanged. -/
def replaceWebpExt (n : List Char) : List Char :=
  if n.drop (n.length - 5) = webpExt then n.take (n.length - 5) ++ pngExt else n

/-- `handleDownload` of `App.tsx` (lines 95–106): returns the triggered save
action, or `none` when the early return `if (!item || !item.pngUrl) return`
fires.  It never mutates controller state. -/
def handleDownload (id : Nat) (st : AppState) : Option DownloadAction :=
  match st.files.find? (fun f => f.id == id) with
  | none => none
  | some item =>
    match item.pngUrl with
    | none => none
    | some u => some { href := u, filename := replaceWebpExt item.file.name }

/-- `URL.revokeObjectURL(u)`: records a release event for an object URL and
does nothing for a data URL. -/
def revokeUrl (u : Url) (revoked : List Url) : List Url :=
  match u with
  | Url.obj n => revoked ++ [Url.obj n]
  | Url.data _ => revoked

/-- The revocation block shared by `handleRemove`, `handleClearAll` and the
unmount cleanup: revoke `webpUrl`, and `pngUrl` when present. -/
def revokeItemUrls (revoked : List Url) (f : FileItem) : List Url :=
  match f.pngUrl with
  | some u => revokeUrl u (revokeUrl f.webpUrl revoked)
  | none => revokeUrl f.webpUrl revoked

/-- `handleRemove` of `App.tsx` (lines 108–119): if an item with the id
exists, revoke its URLs and filter it out; otherwise the filter leaves the
list unchanged and no revocation happens, i.e. the state is unchanged. -/
def handleRemove (id : Nat) (st : AppState) : AppState :=
  match st.files.find? (fun f => f.id == id) with
  | none => st
  | some f =>
      { st with
        revoked := revokeItemUrls st.revoked f,
        files := st.files.filter (fun g => ! (g.id == id)) }

/-- `handleClearAll` of `App.tsx` (lines 121–130): revoke every item's URLs,
empty the batch, reset the aggregate message. -/
def handleClearAll (st : AppState) : AppState :=
  { st with
    revoked := st.files.foldl revokeItemUrls st.revoked,
    files := [],
    globalError := "" }

/-- The unmount cleanup effect (lines 132–142): revoke every current item's
URLs at end of session.  The component is gone afterwards, so only the
registry ghost state matters. -/
def teardown (st : AppState) : AppState :=
  { st with revoked := st.files.foldl revokeItemUrls st.revoked }

/-- The initial render: no files, not converting, no error, fresh counters,
empty registry. -/
def initState : AppState :=
  { files := [], isConvertingAll := false, globalError := "",
    nextId := 0, nextUrl := 0, createdUrls := [], revoked := [] }

/-- The user-triggerable operations of the batch controller. -/
inductive Op where
  | add (sel : List File)
  | convert (env : Url → ConvOutcome)
  | download (id : Nat)
  | remove (id : Nat)
  | clear

/-- Apply one operation.  `download` never mutates controller state. -/
def applyOp (st : AppState) : Op → AppState
  | Op.add sel => handleFileSelect sel st
  | Op.convert env => handleConvertAll env st
  | Op.download _ => st
  | Op.remove id => handleRemove id st
  | Op.clear => handleClearAll st

/-- States reachable from a fresh session by a sequence of operations. -/
def runOps (ops : List Op) : AppState := ops.foldl applyOp initState

/-- Models `FileUpload.handleFileChange` (lines 12–16) and `handleDrop`
(lines 35–42): both forward only the FIRST file of the selection, as a bare
`File`, to the `onFileSelect` prop (typed `(file: File) => void`). -/
def fileUploadForward (sel : List File) : Option File := sel.head?

/-- Models the JS runtime value of `Array.from(file)` when
`App.handleFileSelect` (whose parameter is typed `FileList`) receives the
bare `File` that `FileUpload` forwards: a `File` is not iterable and has no
`length` property, so `Array.from` produces the empty array. -/
def arrayFromFile (_ : File) : List File := []

/-- Adding files through the file-selection interface: the composition of
`FileUpload`'s forwarding with `App.handleFileSelect`. -/
def uiAddFiles (sel : List File) (st : AppState) : AppState :=
  match fileUploadForward sel with
  | none => st
  | some f => handleFileSelect (arrayFromFile f) st

/-- The batch state observable after the `n`-th `setFiles` call of the
`handleConvertAll` loop (two calls per snapshot item: the converting mark,
then the settled outcome). -/
def afterUpdates (env : Url → ConvOutcome) : List FileItem → List FileItem → Nat → List FileItem
  | _, fs, 0 => fs
  | [], fs, _ + 1 => fs
  | it :: _, fs, 1 => markConverting it.id fs
  | it :: rest, fs, n + 2 => afterUpdates env rest (convStep env it fs) n

/-- The status of the item with id `tid`, as the presentation layer finds it
(`none` when no such item is in the batch). -/
def statusIn (fs : List FileItem) (tid : Nat) : Option Status :=
  (fs.find? (fun f => f.id == tid)).map (fun f => f.status)

/-- A found terminal status. -/
def isTerminalOpt : Option Status → Prop
  | some s => s = Status.converted ∨ s = Status.error
  | none => False

/-- The filter effect on the batch of a sequence of `handleRemove` calls
issued while `handleConvertAll` is suspended in an `await`. -/
def removeIds (rids : List Nat) (fs : List FileItem) : List FileItem :=
  rids.foldl (fun acc i => acc.filter (fun f => ! (f.id == i))) fs

/-- The `handleConvertAll` loop with interference: while the loop is
suspended awaiting item `it`'s conversion (i.e. between its converting mark
and its outcome update), the removals paired with `it` are applied by the
user. -/
def convLoopI (env : Url → ConvOutcome) : List (FileItem × List Nat) → List FileItem → List FileItem
  | [], fs => fs
  | (it, rids) :: rest, fs =>
      convLoopI env rest (applyOutcome env it (removeIds rids (markConverting it.id fs)))

/-- The net per-item effect of one loop iteration on the item itself, as a
function of the oracle: converted with the data URL, or error with the
distinguishing message. -/
def finalize (env : Url → ConvOutcome) (f : FileItem) : FileItem :=
  match runConversion env f.webpUrl with
  | Except.ok png => { f with status := Status.converted, pngUrl := some (Url.data png) }
  | Except.error msg => { f with status := Status.error, error := some msg }

/-- The terminal status one loop iteration gives the processed item. -/
def outcomeStatus (env : Url → ConvOutcome) (u : Url) : Status :=
  match runConversion env u with
  | Except.ok _ => Status.converted
  | Except.error _ => Status.error

/-- The object URLs `obj s, obj (s+1), …, obj (s+n-1)`. -/
def objRange : Nat → Nat → List Url
  | _, 0 => []
  | s, n + 1 => Url.obj s :: objRange (s + 1) n

/-- Number of occurrences of the url `u` in `l`. -/
def countUrl (u : Url) (l : List Url) : Nat :=
  List.countP (fun v => decide (v = u)) l

/-- A terminal-or-absent verdict for a looked-up item. -/
def GoodOutcome : Option FileItem → Prop
  | some f => (f.status = Status.converted ∧ f.pngUrl ≠ none) ∨
              (f.status = Status.error ∧ f.error ≠ none)
  | none => False

/-- The looked-up item records the given failure message. -/
def ErrWith (msg : String) : Option FileItem → Prop
  | some f => f.status = Status.error ∧ f.error = some msg
  | none => False

/-- The looked-up item has reached a terminal status. -/
def TerminalAt : Option FileItem → Prop
  | some f => f.status = Status.converted ∨ f.status = Status.error
  | none => False

/-- The state invariant maintained by every reachable state: id and URL
freshness, the output/error presence invariants of the data model, no item
resting in `converting`, and the registry accounting (every object URL ever
created is either held by a live item's `webpUrl` or has been revoked,
exactly one of the two). -/
structure StInv (st : AppState) : Prop where
  idBound : ∀ f ∈ st.files, f.id < st.nextId
  idsNodup : (st.files.map (fun f => f.id)).Nodup
  webpObj : ∀ f ∈ st.files, ∃ n, f.webpUrl = Url.obj n ∧ n < st.nextUrl
  webpNodup : (st.files.map (fun f => f.webpUrl)).Nodup
  pngData : ∀ f ∈ st.files, ∀ u, f.pngUrl = some u → ∃ s, u = Url.data s
  pngIff : ∀ f ∈ st.files, (f.pngUrl ≠ none ↔ f.status = Status.converted)
  errIff : ∀ f ∈ st.files, (f.error ≠ none ↔ f.status = Status.error)
  notConverting : ∀ f ∈ st.files, f.status ≠ Status.converting
  createdEq : st.createdUrls = objRange 0 st.nextUrl
  acct : List.Perm st.createdUrls (st.files.map (fun f => f.webpUrl) ++ st.revoked)

/-- Concrete valid WebP file used in witnesses. -/
def wFile : File := { name := ['a', '.', 'w', 'e', 'b', 'p'], size := 3, type := "image/webp" }

/-- Concrete rejected (non-WebP) file used in witnesses. -/
def wBad : File := { name := ['b', '.', 'j', 'p', 'g'], size := 4, type := "image/jpeg" }

/-- Oracle under which every conversion succeeds with payload "P". -/
def envOk : Url → ConvOutcome := fun _ => ConvOutcome.ok "P"

/-- Oracle under which every decode fails. -/
def envLoadFail : Url → ConvOutcome := fun _ => ConvOutcome.loadError

/-- A reachable state holding one pending item. -/
def st1 : AppState := handleFileSelect [wFile] initState

/-- The pending item of `st1`. -/
def pItem : FileItem :=
  { id := 0, file := wFile, webpUrl := Url.obj 0, pngUrl := none,
    status := Status.pending, error := none }

/-- A second pending item (fresh id and URL). -/
def pItemB : FileItem :=
  { id := 1, file := wFile, webpUrl := Url.obj 1, pngUrl := none,
    status := Status.pending, error := none }

/-- The item of `st1` after a successful conversion under `envOk`. -/
def wItem : FileItem :=
  { id := 0, file := wFile, webpUrl := Url.obj 0, pngUrl := some (Url.data "P"),
    status := Status.converted, error := none }

/-- Operations producing a reachable state with a single converted item. -/
def c5ops : List Op := [Op.add [wFile], Op.convert envOk]

/-- The selection of claim C7's scenario: three valid WebP files and one
invalid file handed to the file-selection interface in a single add. -/
def c7sel : List File :=
  [wFile,
   { name := ['c', '.', 'w', 'e', 'b', 'p'], size := 5, type := "image/webp" },
   { name := ['d', '.', 'w', 'e', 'b', 'p'], size := 6, type := "image/webp" },
   wBad]

/-! ### Generic list helpers -/

theorem map_eq_self_of {α : Type} (l : List α) (g : α → α) (h : ∀ x ∈ l, g x = x) :
    l.map g = l := by
  induction l with
  | nil => rfl
  | cons x xs ih =>
      simp only [List.map_cons, List.cons.injEq]
      exact ⟨h x (List.mem_cons_self x xs), ih fun y hy => h y (List.mem_cons_of_mem x hy)⟩

theorem filter_eq_nil_of {α : Type} (l : List α) (p : α → Bool) (h : ∀ x ∈ l, p x = false) :
    l.filter p = [] := by
  induction l with
  | nil => rfl
  | cons x xs ih =>
      have hx := h x (List.mem_cons_self x xs)
      simp only [List.filter_cons, hx, Bool.false_eq_true, if_false]
      exact ih fun y hy => h y (List.mem_cons_of_mem x hy)

theorem forall_of_filter_eq_nil {α : Type} (l : List α) (p : α → Bool) (h : l.filter p = []) :
    ∀ x ∈ l, p x = false := by
  induction l with
  | nil => intro x hx; cases hx
  | cons x xs ih =>
      intro y hy
      by_cases hx : p x = true
      · simp only [List.filter_cons, hx, if_true] at h
        cases h
      · have hx' : p x = false := by
          cases hpx : p x
          · rfl
          · exact absurd hpx hx
        simp only [List.filter_cons, hx', Bool.false_eq_true, if_false] at h
        rcases List.mem_cons.mp hy with rfl | hmem
        · exact hx'
        · exact ih h y hmem

theorem filter_eq_self_of {α : Type} (l : List α) (p : α → Bool) (h : ∀ x ∈ l, p x = true) :
    l.filter p = l := by
  induction l with
  | nil => rfl
  | cons x xs ih =>
      simp only [List.filter_cons, h x (List.mem_cons_self x xs), if_true]
      rw [ih fun y hy => h y (List.mem_cons_of_mem x hy)]

theorem get_opt_map {α β : Type} (g : α → β) :
    ∀ (l : List α) (k : Nat), (l.map g).get? k = (l.get? k).map g := by
  intro l
  induction l with
  | nil => intro k; rfl
  | cons x xs ih =>
      intro k
      cases k with
      | zero => rfl
      | succ k => exact ih k

/-! ### updateItem and statusIn -/

theorem updateItem_cons (tid : Nat) (h : FileItem → FileItem) (g : FileItem) (rest : List FileItem) :
    updateItem tid h (g :: rest) =
      (if g.id == tid then h g else g) :: updateItem tid h rest := rfl

theorem updateItem_nomatch (tid : Nat) (h : FileItem → FileItem) (fs : List FileItem)
    (hne : ∀ f ∈ fs, f.id ≠ tid) : updateItem tid h fs = fs := by
  apply map_eq_self_of
  intro f hf
  have : (f.id == tid) = false := by
    simp only [beq_eq_false_iff_ne, ne_eq]
    exact hne f hf
  simp [this]

theorem statusIn_cons (f : FileItem) (fs : List FileItem) (tid : Nat) :
    statusIn (f :: fs) tid = if f.id == tid then some f.status else statusIn fs tid := by
  by_cases h : (f.id == tid) = true
  · simp [statusIn, List.find?_cons_of_pos, h]
  · have h' : (f.id == tid) = false := by
      cases hb : f.id == tid
      · rfl
      · exact absurd hb h
    simp [statusIn, List.find?_cons_of_neg, h']

theorem statusIn_updateItem_other (tid' tid : Nat) (h : FileItem → FileItem)
    (hid : ∀ f, (h f).id = f.id) (hne : tid' ≠ tid) (fs : List FileItem) :
    statusIn (updateItem tid' h fs) tid = statusIn fs tid := by
  induction fs with
  | nil => rfl
  | cons g rest ih =>
      rw [updateItem_cons, statusIn_cons, statusIn_cons]
      by_cases hg : (g.id == tid') = true
      · have hgid : g.id = tid' := by simpa using hg
        have : ((h g).id == tid) = false := by
          simp only [beq_eq_false_iff_ne, ne_eq, hid g, hgid]
          exact hne
        have hgtid : (g.id == tid) = false := by
          simp only [beq_eq_false_iff_ne, ne_eq, hgid]
          exact hne
        simp [hg, this, hgtid, ih]
      · have hg' : (g.id == tid') = false := by
          cases hb : g.id == tid'
          · rfl
          · exact absurd hb hg
        simp [hg', ih]

theorem statusIn_updateItem_const (tid : Nat) (h : FileItem → FileItem) (c : Status)
    (hid : ∀ f, (h f).id = f.id) (hc : ∀ f, (h f).status = c) (fs : List FileItem)
    (hsome : statusIn fs tid ≠ none) :
    statusIn (updateItem tid h fs) tid = some c := by
  induction fs with
  | nil => exact absurd rfl hsome
  | cons g rest ih =>
      rw [updateItem_cons, statusIn_cons]
      by_cases hg : (g.id == tid) = true
      · have hgid : g.id = tid := by simpa using hg
        have : ((h g).id == tid) = true := by
          simp [hid g, hgid]
        simp [hg, this, hc g]
      · have hg' : (g.id == tid) = false := by
          cases hb : g.id == tid
          · rfl
          · exact absurd hb hg
        rw [statusIn_cons, hg'] at hsome
        simp only [Bool.false_eq_true, if_false] at hsome
        have hgh : ((if g.id == tid then h g else g).id == tid) = false := by
          simp [hg']
        rw [hg']
        simp only [Bool.false_eq_true, if_false]
        rw [hg'] at hgh
        simp only [Bool.false_eq_true, if_false] at hgh
        simp [hgh, ih hsome]

theorem statusIn_mark_other (tid' tid : Nat) (hne : tid' ≠ tid) (fs : List FileItem) :
    statusIn (markConverting tid' fs) tid = statusIn fs tid :=
  statusIn_updateItem_other tid' tid (fun f => { f with status := Status.converting })
    (fun _ => rfl) hne fs

theorem statusIn_mark_self (tid : Nat) (fs : List FileItem) (hsome : statusIn fs tid ≠ none) :
    statusIn (markConverting tid fs) tid = some Status.converting :=
  statusIn_updateItem_const tid (fun f => { f with status := Status.converting })
    Status.converting (fun _ => rfl) (fun _ => rfl) fs hsome

theorem statusIn_applyOutcome_other (env : Url → ConvOutcome) (it : FileItem) (tid : Nat)
    (hne : it.id ≠ tid) (fs : List FileItem) :
    statusIn (applyOutcome env it fs) tid = statusIn fs tid := by
  unfold applyOutcome
  cases runConversion env it.webpUrl with
  | ok png =>
      exact statusIn_updateItem_other it.id tid
        (fun f => { f with status := Status.converted, pngUrl := some (Url.data png) })
        (fun _ => rfl) hne fs
  | error msg =>
      exact statusIn_updateItem_other it.id tid
        (fun f => { f with status := Status.error, error := some msg })
        (fun _ => rfl) hne fs

theorem statusIn_applyOutcome_self (env : Url → ConvOutcome) (it : FileItem)
    (fs : List FileItem) (hsome : statusIn fs it.id ≠ none) :
    statusIn (applyOutcome env it fs) it.id = some (outcomeStatus env it.webpUrl) := by
  unfold applyOutcome outcomeStatus
  cases runConversion env it.webpUrl with
  | ok png =>
      exact statusIn_updateItem_const it.id
        (fun f => { f with status := Status.converted, pngUrl := some (Url.data png) })
        Status.converted (fun _ => rfl) (fun _ => rfl) fs hsome
  | error msg =>
      exact statusIn_updateItem_const it.id
        (fun f => { f with status := Status.error, error := some msg })
        Status.error (fun _ => rfl) (fun _ => rfl) fs hsome

theorem statusIn_convStep_other (env : Url → ConvOutcome) (it : FileItem) (tid : Nat)
    (hne : it.id ≠ tid) (fs : List FileItem) :
    statusIn (convStep env it fs) tid = statusIn fs tid := by
  unfold convStep
  rw [statusIn_applyOutcome_other env it tid hne, statusIn_mark_other it.id tid hne]

theorem statusIn_convStep_self (env : Url → ConvOutcome) (it : FileItem)
    (fs : List FileItem) (hsome : statusIn fs it.id ≠ none) :
    statusIn (convStep env it fs) it.id = some (outcomeStatus env it.webpUrl) := by
  unfold convStep
  apply statusIn_applyOutcome_self
  rw [statusIn_mark_self it.id fs hsome]
  intro hcontra
  cases hcontra

theorem outcomeStatus_terminal (env : Url → ConvOutcome) (u : Url) :
    outcomeStatus env u = Status.converted ∨ outcomeStatus env u = Status.error := by
  unfold outcomeStatus
  cases runConversion env u with
  | ok _ => exact Or.inl rfl
  | error _ => exact Or.inr rfl

/-! ### Characterization of the conversion loop -/

theorem applyOutcome_ok (env : Url → ConvOutcome) (it : FileItem) (fs : List FileItem)
    (png : String) (hrc : runConversion env it.webpUrl = Except.ok png) :
    applyOutcome env it fs =
      updateItem it.id
        (fun f => { f with status := Status.converted, pngUrl := some (Url.data png) }) fs := by
  unfold applyOutcome
  rw [hrc]

theorem applyOutcome_err (env : Url → ConvOutcome) (it : FileItem) (fs : List FileItem)
    (msg : String) (hrc : runConversion env it.webpUrl = Except.error msg) :
    applyOutcome env it fs =
      updateItem it.id (fun f => { f with status := Status.error, error := some msg }) fs := by
  unfold applyOutcome
  rw [hrc]

theorem finalize_ok (env : Url → ConvOutcome) (f : FileItem) (png : String)
    (hrc : runConversion env f.webpUrl = Except.ok png) :
    finalize env f = { f with status := Status.converted, pngUrl := some (Url.data png) } := by
  unfold finalize
  rw [hrc]

theorem finalize_err (env : Url → ConvOutcome) (f : FileItem) (msg : String)
    (hrc : runConversion env f.webpUrl = Except.error msg) :
    finalize env f = { f with status := Status.error, error := some msg } := by
  unfold finalize
  rw [hrc]

theorem updateItem_cons_ne (tid : Nat) (h : FileItem → FileItem) (g : FileItem)
    (rest : List FileItem) (hne : g.id ≠ tid) :
    updateItem tid h (g :: rest) = g :: updateItem tid h rest := by
  rw [updateItem_cons]
  have hg : (g.id == tid) = false := by
    simp only [beq_eq_false_iff_ne, ne_eq]
    exact hne
  rw [hg]
  simp

theorem applyOutcome_cons_ne (env : Url → ConvOutcome) (it : FileItem) (g : FileItem)
    (rest : List FileItem) (hne : g.id ≠ it.id) :
    applyOutcome env it (g :: rest) = g :: applyOutcome env it rest := by
  cases hrc : runConversion env it.webpUrl with
  | ok png =>
      rw [applyOutcome_ok env it _ png hrc, applyOutcome_ok env it rest png hrc]
      exact updateItem_cons_ne it.id _ g rest hne
  | error msg =>
      rw [applyOutcome_err env it _ msg hrc, applyOutcome_err env it rest msg hrc]
      exact updateItem_cons_ne it.id _ g rest hne

theorem convStep_cons_ne (env : Url → ConvOutcome) (it : FileItem) (g : FileItem)
    (rest : List FileItem) (hne : g.id ≠ it.id) :
    convStep env it (g :: rest) = g :: convStep env it rest := by
  unfold convStep markConverting
  rw [updateItem_cons_ne it.id _ g rest hne]
  exact applyOutcome_cons_ne env it g _ hne

theorem convStep_cons_self (env : Url → ConvOutcome) (f : FileItem) (rest : List FileItem)
    (hne : ∀ g ∈ rest, g.id ≠ f.id) :
    convStep env f (f :: rest) = finalize env f :: rest := by
  unfold convStep markConverting
  rw [updateItem_cons]
  have hself : (f.id == f.id) = true := by simp
  rw [hself]
  simp only [if_true]
  rw [updateItem_nomatch f.id _ rest hne]
  cases hrc : runConversion env f.webpUrl with
  | ok png =>
      rw [applyOutcome_ok env f _ png hrc, finalize_ok env f png hrc]
      rw [updateItem_cons]
      have : (({ f with status := Status.converting } : FileItem).id == f.id) = true := by simp
      rw [this]
      simp only [if_true]
      rw [updateItem_nomatch f.id _ rest hne]
  | error msg =>
      rw [applyOutcome_err env f _ msg hrc, finalize_err env f msg hrc]
      rw [updateItem_cons]
      have : (({ f with status := Status.converting } : FileItem).id == f.id) = true := by simp
      rw [this]
      simp only [if_true]
      rw [updateItem_nomatch f.id _ rest hne]

theorem convLoop_cons_keep (env : Url → ConvOutcome) (snap : List FileItem) :
    ∀ (g : FileItem) (rest : List FileItem), (∀ it ∈ snap, it.id ≠ g.id) →
      convLoop env snap (g :: rest) = g :: convLoop env snap rest := by
  induction snap with
  | nil => intro g rest _; rfl
  | cons it snap' ih =>
      intro g rest hne
      have hg : g.id ≠ it.id := fun h => hne it (List.mem_cons_self it snap') h.symm
      show convLoop env snap' (convStep env it (g :: rest)) = g :: convLoop env snap' (convStep env it rest)
      rw [convStep_cons_ne env it g rest hg]
      exact ih g (convStep env it rest) fun it' hit' => hne it' (List.mem_cons_of_mem it hit')

theorem isPending_iff (f : FileItem) : isPending f = true ↔ f.status = Status.pending := by
  unfold isPending
  cases f.status <;> simp

theorem isPending_false_iff (f : FileItem) : isPending f = false ↔ f.status ≠ Status.pending := by
  unfold isPending
  cases f.status <;> simp

theorem convLoop_filter_eq (env : Url → ConvOutcome) :
    ∀ fs : List FileItem, (fs.map (fun f => f.id)).Nodup →
      convLoop env (fs.filter isPending) fs =
        fs.map (fun f => if isPending f then finalize env f else f) := by
  intro fs
  induction fs with
  | nil => intro _; rfl
  | cons f rest ih =>
      intro hnd
      rw [List.map_cons, List.nodup_cons] at hnd
      obtain ⟨hnotmem, hndrest⟩ := hnd
      have hner : ∀ g ∈ rest, g.id ≠ f.id := by
        intro g hg hgid
        exact hnotmem (List.mem_map.mpr ⟨g, hg, hgid⟩)
      by_cases hp : isPending f = true
      · rw [List.filter_cons_of_pos hp]
        show convLoop env (f :: rest.filter isPending) (f :: rest) = _
        show convLoop env (rest.filter isPending) (convStep env f (f :: rest)) = _
        rw [convStep_cons_self env f rest hner]
        have hkeep : ∀ it ∈ rest.filter isPending, it.id ≠ (finalize env f).id := by
          intro it hit
          have hitm : it ∈ rest := List.mem_of_mem_filter hit
          have : (finalize env f).id = f.id := by
            cases hrc : runConversion env f.webpUrl with
            | ok png => rw [finalize_ok env f png hrc]
            | error msg => rw [finalize_err env f msg hrc]
          rw [this]
          exact hner it hitm
        rw [convLoop_cons_keep env (rest.filter isPending) (finalize env f) rest hkeep]
        rw [ih hndrest, List.map_cons, hp]
        simp
      · have hp' : isPending f = false := by
          cases hb : isPending f
          · rfl
          · exact absurd hb hp
        rw [List.filter_cons_of_neg (by rw [hp']; exact Bool.false_ne_true)]
        have hkeep : ∀ it ∈ rest.filter isPending, it.id ≠ f.id := by
          intro it hit
          exact hner it (List.mem_of_mem_filter hit)
        rw [convLoop_cons_keep env (rest.filter isPending) f rest hkeep]
        rw [ih hndrest, List.map_cons, hp']
        simp

theorem handleConvertAll_files_eq (env : Url → ConvOutcome) (st : AppState)
    (hnd : (st.files.map (fun f => f.id)).Nodup) :
    (handleConvertAll env st).files =
      st.files.map (fun f => if isPending f then finalize env f else f) := by
  unfold handleConvertAll
  by_cases hz : (st.files.filter isPending).length = 0
  · rw [if_pos hz]
    have hnil : st.files.filter isPending = [] := List.length_eq_zero.mp hz
    have hall := forall_of_filter_eq_nil st.files isPending hnil
    have : st.files.map (fun f => if isPending f then finalize env f else f) = st.files := by
      apply map_eq_self_of
      intro f hf
      rw [hall f hf]
      simp
    rw [this]
  · rw [if_neg hz]
    show convLoop env (st.files.filter isPending) st.files = _
    exact convLoop_filter_eq env st.files hnd

theorem handleConvertAll_frame (env : Url → ConvOutcome) (st : AppState) :
    (handleConvertAll env st).globalError = st.globalError ∧
    (handleConvertAll env st).nextId = st.nextId ∧
    (handleConvertAll env st).nextUrl = st.nextUrl ∧
    (handleConvertAll env st).createdUrls = st.createdUrls ∧
    (handleConvertAll env st).revoked = st.revoked := by
  unfold handleConvertAll
  by_cases hz : (st.files.filter isPending).length = 0
  · rw [if_pos hz]
    exact ⟨rfl, rfl, rfl, rfl, rfl⟩
  · rw [if_neg hz]
    exact ⟨rfl, rfl, rfl, rfl, rfl⟩

theorem handleConvertAll_no_pending (env : Url → ConvOutcome) (st : AppState)
    (h : ∀ f ∈ st.files, f.status ≠ Status.pending) : handleConvertAll env st = st := by
  unfold handleConvertAll
  have hnil : st.files.filter isPending = [] := by
    apply filter_eq_nil_of
    intro f hf
    exact (isPending_false_iff f).mpr (h f hf)
  rw [if_pos (by rw [hnil]; rfl)]

theorem finalize_id (env : Url → ConvOutcome) (f : FileItem) : (finalize env f).id = f.id := by
  cases hrc : runConversion env f.webpUrl with
  | ok png => rw [finalize_ok env f png hrc]
  | error msg => rw [finalize_err env f msg hrc]

theorem finalize_webp (env : Url → ConvOutcome) (f : FileItem) :
    (finalize env f).webpUrl = f.webpUrl := by
  cases hrc : runConversion env f.webpUrl with
  | ok png => rw [finalize_ok env f png hrc]
  | error msg => rw [finalize_err env f msg hrc]

theorem finalize_terminal (env : Url → ConvOutcome) (f : FileItem) :
    ((finalize env f).status = Status.converted ∧ (finalize env f).pngUrl ≠ none) ∨
    ((finalize env f).status = Status.error ∧ (finalize env f).error ≠ none) := by
  cases hrc : runConversion env f.webpUrl with
  | ok png =>
      left
      rw [finalize_ok env f png hrc]
      exact ⟨rfl, by simp⟩
  | error msg =>
      right
      rw [finalize_err env f msg hrc]
      exact ⟨rfl, by simp⟩

theorem updateItem_get (tid : Nat) (h : FileItem → FileItem) (fs : List FileItem) (k : Nat) :
    (updateItem tid h fs).get? k = (fs.get? k).map (fun f => if f.id == tid then h f else f) :=
  get_opt_map _ fs k

theorem convStep_get_ne (env : Url → ConvOutcome) (it : FileItem) (fs : List FileItem)
    (k : Nat) (f2 : FileItem) (hk : fs.get? k = some f2) (hne : f2.id ≠ it.id) :
    (convStep env it fs).get? k = some f2 := by
  have hbeq : (f2.id == it.id) = false := by
    simp only [beq_eq_false_iff_ne, ne_eq]
    exact hne
  have hmark : (markConverting it.id fs).get? k = some f2 := by
    unfold markConverting
    rw [updateItem_get, hk]
    show some (if f2.id == it.id then _ else f2) = some f2
    rw [hbeq]
    simp
  unfold convStep
  cases hrc : runConversion env it.webpUrl with
  | ok png =>
      rw [applyOutcome_ok env it _ png hrc, updateItem_get, hmark]
      show some (if f2.id == it.id then _ else f2) = some f2
      rw [hbeq]
      simp
  | error msg =>
      rw [applyOutcome_err env it _ msg hrc, updateItem_get, hmark]
      show some (if f2.id == it.id then _ else f2) = some f2
      rw [hbeq]
      simp

theorem isPending_ne_of_false (f : FileItem) (hp : ¬ isPending f = true) :
    f.status ≠ Status.pending := by
  apply (isPending_false_iff f).mp
  cases hb : isPending f
  · rfl
  · exact absurd hb hp

/-- C1: after `convertAll`, every item that was pending before the call is
converted with a non-null `pngUrl` or in error with a non-null message; no
item is left converting; when nothing is pending the call changes no state,
so a second consecutive call is a no-op. -/
theorem c1_convertAll (env env2 : Url → ConvOutcome) (st : AppState)
    (hnd : (st.files.map (fun f => f.id)).Nodup)
    (hnc : ∀ f ∈ st.files, f.status ≠ Status.converting) :
    (∀ k f, st.files.get? k = some f → f.status = Status.pending →
       GoodOutcome ((handleConvertAll env st).files.get? k)) ∧
    (∀ f ∈ (handleConvertAll env st).files, f.status ≠ Status.converting) ∧
    ((∀ f ∈ st.files, f.status ≠ Status.pending) → handleConvertAll env st = st) ∧
    (handleConvertAll env2 (handleConvertAll env st) = handleConvertAll env st) := by
  have hfe := handleConvertAll_files_eq env st hnd
  refine ⟨?_, ?_, handleConvertAll_no_pending env st, ?_⟩
  · intro k f hk hp
    rw [hfe, get_opt_map, hk]
    show GoodOutcome (some (if isPending f then finalize env f else f))
    rw [if_pos ((isPending_iff f).mpr hp)]
    exact finalize_terminal env f
  · intro f' hf'
    rw [hfe] at hf'
    obtain ⟨f, hf, rfl⟩ := List.mem_map.mp hf'
    by_cases hp : isPending f = true
    · rw [if_pos hp]
      rcases finalize_terminal env f with ⟨h1, _⟩ | ⟨h1, _⟩ <;> rw [h1] <;> simp
    · rw [if_neg hp]
      exact hnc f hf
  · apply handleConvertAll_no_pending
    intro f' hf'
    rw [hfe] at hf'
    obtain ⟨f, hf, rfl⟩ := List.mem_map.mp hf'
    by_cases hp : isPending f = true
    · rw [if_pos hp]
      rcases finalize_terminal env f with ⟨h1, _⟩ | ⟨h1, _⟩ <;> rw [h1] <;> simp
    · rw [if_neg hp]
      exact isPending_ne_of_false f hp

/-- C1 witness: with one pending item and a succeeding oracle, a second
consecutive `convertAll` call leaves the state unchanged. -/
theorem c1_convertAll_witness :
    handleConvertAll envOk (handleConvertAll envOk st1) = handleConvertAll envOk st1 :=
  (c1_convertAll envOk envOk st1 (by decide) (by decide)).2.2.2

/-- C8: a failing conversion is captured at the failing item only — decode
and output failures get distinct messages on that item, any item with a
different id is untouched by the step, and the loop still drives every
pending item (in particular those after a failure) to a terminal state; the
loop is a total function, so nothing escapes the controller. -/
theorem c8_error_isolation (env : Url → ConvOutcome) (st : AppState)
    (hnd : (st.files.map (fun f => f.id)).Nodup) :
    (∀ k f, st.files.get? k = some f → f.status = Status.pending →
       env f.webpUrl = ConvOutcome.loadError →
       ErrWith "Image load failed." ((handleConvertAll env st).files.get? k)) ∧
    (∀ k f, st.files.get? k = some f → f.status = Status.pending →
       env f.webpUrl = ConvOutcome.ctxError →
       ErrWith "Canvas context error." ((handleConvertAll env st).files.get? k)) ∧
    (("Image load failed." : String) ≠ "Canvas context error.") ∧
    (∀ (it : FileItem) (fs : List FileItem) (k : Nat) (f2 : FileItem),
       fs.get? k = some f2 → f2.id ≠ it.id → (convStep env it fs).get? k = some f2) ∧
    (∀ k f, st.files.get? k = some f → f.status = Status.pending →
       TerminalAt ((handleConvertAll env st).files.get? k)) := by
  have hfe := handleConvertAll_files_eq env st hnd
  refine ⟨?_, ?_, by decide, ?_, ?_⟩
  · intro k f hk hp henv
    have hrc : runConversion env f.webpUrl = Except.error "Image load failed." := by
      unfold runConversion
      rw [henv]
    rw [hfe, get_opt_map, hk]
    show ErrWith _ (some (if isPending f then finalize env f else f))
    rw [if_pos ((isPending_iff f).mpr hp), finalize_err env f _ hrc]
    exact ⟨rfl, rfl⟩
  · intro k f hk hp henv
    have hrc : runConversion env f.webpUrl = Except.error "Canvas context error." := by
      unfold runConversion
      rw [henv]
    rw [hfe, get_opt_map, hk]
    show ErrWith _ (some (if isPending f then finalize env f else f))
    rw [if_pos ((isPending_iff f).mpr hp), finalize_err env f _ hrc]
    exact ⟨rfl, rfl⟩
  · intro it fs k f2 hk hne
    exact convStep_get_ne env it fs k f2 hk hne
  · intro k f hk hp
    rw [hfe, get_opt_map, hk]
    show TerminalAt (some (if isPending f then finalize env f else f))
    rw [if_pos ((isPending_iff f).mpr hp)]
    rcases finalize_terminal env f with ⟨h1, _⟩ | ⟨h1, _⟩
    · exact Or.inl h1
    · exact Or.inr h1

/-- C8 witness: under an always-failing decode oracle, the single pending
item of `st1` ends in error with the decode-failure message. -/
theorem c8_error_isolation_witness :
    ErrWith "Image load failed." ((handleConvertAll envLoadFail st1).files.get? 0) :=
  (c8_error_isolation envLoadFail st1 (by decide)).1 0 pItem (by decide) rfl rfl

/-- C9: `convertAll` modifies only the items that were pending at
invocation — every non-pending item is unchanged in all fields, the batch's
length and the id at every position are unchanged, and the aggregate error
message (and the ghost registry state) is untouched. -/
theorem c9_convertAll_frame (env : Url → ConvOutcome) (st : AppState)
    (hnd : (st.files.map (fun f => f.id)).Nodup) :
    ((handleConvertAll env st).files.length = st.files.length) ∧
    (∀ k f, st.files.get? k = some f → f.status ≠ Status.pending →
       (handleConvertAll env st).files.get? k = some f) ∧
    (∀ k, ((handleConvertAll env st).files.get? k).map (fun f => f.id) =
          (st.files.get? k).map (fun f => f.id)) ∧
    (handleConvertAll env st).globalError = st.globalError ∧
    (handleConvertAll env st).nextId = st.nextId ∧
    (handleConvertAll env st).nextUrl = st.nextUrl ∧
    (handleConvertAll env st).createdUrls = st.createdUrls ∧
    (handleConvertAll env st).revoked = st.revoked := by
  have hfe := handleConvertAll_files_eq env st hnd
  obtain ⟨h1, h2, h3, h4, h5⟩ := handleConvertAll_frame env st
  refine ⟨?_, ?_, ?_, h1, h2, h3, h4, h5⟩
  · rw [hfe, List.length_map]
  · intro k f hk hp
    rw [hfe, get_opt_map, hk]
    show some (if isPending f then finalize env f else f) = some f
    rw [if_neg (fun hb => hp ((isPending_iff f).mp hb))]
  · intro k
    rw [hfe, get_opt_map]
    cases hk : st.files.get? k with
    | none => rfl
    | some f =>
        show some ((if isPending f then finalize env f else f).id) = some f.id
        by_cases hp : isPending f = true
        · rw [if_pos hp, finalize_id env f]
        · rw [if_neg hp]

/-- C9 witness: converting the one-pending-item state preserves the batch
length. -/
theorem c9_convertAll_frame_witness :
    (handleConvertAll envOk st1).files.length = st1.files.length :=
  (c9_convertAll_frame envOk st1 (by decide)).1

/-! ### The observable trace of the conversion loop -/

theorem afterUpdates_zero (env : Url → ConvOutcome) (snap fs : List FileItem) :
    afterUpdates env snap fs 0 = fs := by
  cases snap <;> rfl

theorem afterUpdates_nil (env : Url → ConvOutcome) (fs : List FileItem) (n : Nat) :
    afterUpdates env [] fs n = fs := by
  cases n <;> rfl

theorem afterUpdates_one (env : Url → ConvOutcome) (it : FileItem)
    (rest fs : List FileItem) :
    afterUpdates env (it :: rest) fs 1 = markConverting it.id fs := rfl

theorem afterUpdates_succ2 (env : Url → ConvOutcome) (it : FileItem)
    (rest fs : List FileItem) (n : Nat) :
    afterUpdates env (it :: rest) fs (n + 2) = afterUpdates env rest (convStep env it fs) n := rfl

theorem afterUpdates_statusIn_other (env : Url → ConvOutcome) :
    ∀ (snap : List FileItem) (fs : List FileItem) (n : Nat) (tid : Nat),
      (∀ it ∈ snap, it.id ≠ tid) →
      statusIn (afterUpdates env snap fs n) tid = statusIn fs tid := by
  intro snap
  induction snap with
  | nil => intro fs n tid _; rw [afterUpdates_nil]
  | cons it rest ih =>
      intro fs n tid hne
      have hit : it.id ≠ tid := hne it (List.mem_cons_self it rest)
      have hrest : ∀ it' ∈ rest, it'.id ≠ tid :=
        fun it' h' => hne it' (List.mem_cons_of_mem it h')
      match n with
      | 0 => rw [afterUpdates_zero]
      | 1 => rw [afterUpdates_one, statusIn_mark_other it.id tid hit]
      | n + 2 =>
          rw [afterUpdates_succ2, ih (convStep env it fs) n tid hrest,
            statusIn_convStep_other env it tid hit]

theorem afterUpdates_eq_convLoop (env : Url → ConvOutcome) :
    ∀ (snap fs : List FileItem),
      afterUpdates env snap fs (2 * snap.length) = convLoop env snap fs := by
  intro snap
  induction snap with
  | nil =>
      intro fs
      show afterUpdates env [] fs (2 * 0) = convLoop env [] fs
      rw [Nat.mul_zero, afterUpdates_zero]
      rfl
  | cons it rest ih =>
      intro fs
      have e : 2 * (it :: rest).length = 2 * rest.length + 2 := by
        simp [List.length_cons]
        omega
      rw [e, afterUpdates_succ2]
      exact ih (convStep env it fs)

theorem find_self_of_nodup :
    ∀ (fs : List FileItem), (fs.map (fun f => f.id)).Nodup →
      ∀ f ∈ fs, fs.find? (fun g => g.id == f.id) = some f := by
  intro fs
  induction fs with
  | nil => intro _ f hf; cases hf
  | cons g rest ih =>
      intro hnd f hf
      rw [List.map_cons, List.nodup_cons] at hnd
      obtain ⟨hnm, hnd'⟩ := hnd
      rcases List.mem_cons.mp hf with rfl | hmem
      · rw [List.find?_cons_of_pos _ (by simp)]
      · have hne : (g.id == f.id) = false := by
          simp only [beq_eq_false_iff_ne, ne_eq]
          intro hgf
          exact hnm (List.mem_map.mpr ⟨f, hmem, hgf.symm⟩)
        simp only [List.find?_cons, hne]
        exact ih hnd' f hmem

theorem statusIn_of_mem_nodup (fs : List FileItem)
    (hnd : (fs.map (fun f => f.id)).Nodup) (f : FileItem) (hf : f ∈ fs) :
    statusIn fs f.id = some f.status := by
  unfold statusIn
  rw [find_self_of_nodup fs hnd f hf]
  rfl

theorem convSeq_main (env : Url → ConvOutcome) :
    ∀ (snap : List FileItem), (snap.map (fun f => f.id)).Nodup →
      ∀ (fs : List FileItem), (∀ it ∈ snap, statusIn fs it.id = some Status.pending) →
      ∀ (k : Nat) (hk : k < snap.length),
      statusIn (afterUpdates env snap fs (2 * k + 1)) (snap.get ⟨k, hk⟩).id
          = some Status.converting ∧
      statusIn (afterUpdates env snap fs (2 * k + 2)) (snap.get ⟨k, hk⟩).id
          = some (outcomeStatus env (snap.get ⟨k, hk⟩).webpUrl) ∧
      (∀ (j : Nat) (hj : j < snap.length), k < j →
         statusIn (afterUpdates env snap fs (2 * k + 1)) (snap.get ⟨j, hj⟩).id
             = some Status.pending ∧
         statusIn (afterUpdates env snap fs (2 * k + 2)) (snap.get ⟨j, hj⟩).id
             = some Status.pending) ∧
      (∀ (j : Nat) (hj : j < snap.length), j < k →
         isTerminalOpt (statusIn (afterUpdates env snap fs (2 * k + 1)) (snap.get ⟨j, hj⟩).id)) := by
  intro snap
  induction snap with
  | nil =>
      intro _ fs _ k hk
      exact absurd hk (Nat.not_lt_zero k)
  | cons it rest ih =>
      intro hnd fs hpend k hk
      rw [List.map_cons, List.nodup_cons] at hnd
      obtain ⟨hnm, hnd'⟩ := hnd
      have hner : ∀ g ∈ rest, g.id ≠ it.id := by
        intro g hg hgid
        exact hnm (List.mem_map.mpr ⟨g, hg, hgid⟩)
      have hsome : statusIn fs it.id ≠ none := by
        rw [hpend it (List.mem_cons_self it rest)]
        intro hc
        cases hc
      cases k with
      | zero =>
          refine ⟨?_, ?_, ?_, ?_⟩
          · show statusIn (afterUpdates env (it :: rest) fs 1) it.id = some Status.converting
            rw [afterUpdates_one]
            exact statusIn_mark_self it.id fs hsome
          · show statusIn (afterUpdates env (it :: rest) fs 2) it.id
                = some (outcomeStatus env it.webpUrl)
            rw [show (2 : Nat) = 0 + 2 from rfl, afterUpdates_succ2, afterUpdates_zero]
            exact statusIn_convStep_self env it fs hsome
          · intro j hj hlt
            match j, hj with
            | j' + 1, hj =>
              have hj' : j' < rest.length := by
                simp only [List.length_cons] at hj
                omega
              have hgetj : (it :: rest).get ⟨j' + 1, hj⟩ = rest.get ⟨j', hj'⟩ := rfl
              have hmem : rest.get ⟨j', hj'⟩ ∈ rest := List.get_mem rest j' hj'
              have hne : it.id ≠ (rest.get ⟨j', hj'⟩).id := fun h => hner _ hmem h.symm
              have hpj : statusIn fs (rest.get ⟨j', hj'⟩).id = some Status.pending :=
                hpend _ (List.mem_cons_of_mem it hmem)
              constructor
              · rw [hgetj]
                show statusIn (afterUpdates env (it :: rest) fs 1) (rest.get ⟨j', hj'⟩).id = _
                rw [afterUpdates_one, statusIn_mark_other it.id _ hne, hpj]
              · rw [hgetj]
                show statusIn (afterUpdates env (it :: rest) fs 2) (rest.get ⟨j', hj'⟩).id = _
                rw [show (2 : Nat) = 0 + 2 from rfl, afterUpdates_succ2, afterUpdates_zero,
                  statusIn_convStep_other env it _ hne, hpj]
          · intro j hj hlt
            exact absurd hlt (Nat.not_lt_zero j)
      | succ k' =>
          have hk' : k' < rest.length := by
            simp only [List.length_cons] at hk
            omega
          have hpend2 : ∀ it' ∈ rest, statusIn (convStep env it fs) it'.id = some Status.pending := by
            intro it' h'
            rw [statusIn_convStep_other env it _ (fun h => hner it' h' h.symm)]
            exact hpend it' (List.mem_cons_of_mem it h')
          have ihres := ih hnd' (convStep env it fs) hpend2 k' hk'
          have e1 : 2 * (k' + 1) + 1 = (2 * k' + 1) + 2 := by omega
          have e2 : 2 * (k' + 1) + 2 = (2 * k' + 2) + 2 := by omega
          have hgetk : (it :: rest).get ⟨k' + 1, hk⟩ = rest.get ⟨k', hk'⟩ := rfl
          refine ⟨?_, ?_, ?_, ?_⟩
          · rw [hgetk, e1, afterUpdates_succ2]
            exact ihres.1
          · rw [hgetk, e2, afterUpdates_succ2]
            exact ihres.2.1
          · intro j hj hlt
            match j, hj with
            | j' + 1, hj =>
              have hj' : j' < rest.length := by
                simp only [List.length_cons] at hj
                omega
              have hgetj : (it :: rest).get ⟨j' + 1, hj⟩ = rest.get ⟨j', hj'⟩ := rfl
              have hlt' : k' < j' := by omega
              obtain ⟨ha, hb⟩ := ihres.2.2.1 j' hj' hlt'
              constructor
              · rw [hgetj, e1, afterUpdates_succ2]
                exact ha
              · rw [hgetj, e2, afterUpdates_succ2]
                exact hb
          · intro j hj hlt
            cases j with
            | zero =>
                have hget0 : (it :: rest).get ⟨0, hj⟩ = it := rfl
                rw [hget0, e1, afterUpdates_succ2]
                rw [afterUpdates_statusIn_other env rest (convStep env it fs) (2 * k' + 1) it.id
                  (fun it' h' h => hner it' h' h)]
                rw [statusIn_convStep_self env it fs hsome]
                show outcomeStatus env it.webpUrl = Status.converted ∨
                     outcomeStatus env it.webpUrl = Status.error
                exact outcomeStatus_terminal env it.webpUrl
            | succ j' =>
                have hj' : j' < rest.length := by
                  simp only [List.length_cons] at hj
                  omega
                have hgetj : (it :: rest).get ⟨j' + 1, hj⟩ = rest.get ⟨j', hj'⟩ := rfl
                have hlt' : j' < k' := by omega
                rw [hgetj, e1, afterUpdates_succ2]
                exact ihres.2.2.2 j' hj' hlt'

/-- C3: during `convertAll` the pending items are processed strictly one at a
time in batch order: the trace of observable states has, for the k-th
snapshot item, a state where it is converting and a following state where it
is terminal; while it is converting (and right after it settles) every later
snapshot item is still pending and every earlier one is already terminal; and
the final trace state is exactly the loop's result, i.e. the state is updated
after each item rather than batched at the end. -/
theorem c3_ordering (env : Url → ConvOutcome) (st : AppState)
    (hnd : (st.files.map (fun f => f.id)).Nodup) :
    (afterUpdates env (st.files.filter isPending) st.files
        (2 * (st.files.filter isPending).length)
      = convLoop env (st.files.filter isPending) st.files) ∧
    (∀ (k : Nat) (hk : k < (st.files.filter isPending).length),
      statusIn (afterUpdates env (st.files.filter isPending) st.files (2 * k + 1))
          ((st.files.filter isPending).get ⟨k, hk⟩).id = some Status.converting ∧
      isTerminalOpt (statusIn (afterUpdates env (st.files.filter isPending) st.files (2 * k + 2))
          ((st.files.filter isPending).get ⟨k, hk⟩).id) ∧
      (∀ (j : Nat) (hj : j < (st.files.filter isPending).length), k < j →
        statusIn (afterUpdates env (st.files.filter isPending) st.files (2 * k + 1))
            ((st.files.filter isPending).get ⟨j, hj⟩).id = some Status.pending ∧
        statusIn (afterUpdates env (st.files.filter isPending) st.files (2 * k + 2))
            ((st.files.filter isPending).get ⟨j, hj⟩).id = some Status.pending) ∧
      (∀ (j : Nat) (hj : j < (st.files.filter isPending).length), j < k →
        isTerminalOpt (statusIn
            (afterUpdates env (st.files.filter isPending) st.files (2 * k + 1))
            ((st.files.filter isPending).get ⟨j, hj⟩).id))) := by
  have hsub : List.Sublist ((st.files.filter isPending).map (fun f => f.id))
      (st.files.map (fun f => f.id)) :=
    List.Sublist.map _ (List.filter_sublist st.files)
  have hsnd : ((st.files.filter isPending).map (fun f => f.id)).Nodup := hnd.sublist hsub
  have hpend : ∀ it ∈ st.files.filter isPending,
      statusIn st.files it.id = some Status.pending := by
    intro it hit
    obtain ⟨hmem, hp⟩ := List.mem_filter.mp hit
    rw [statusIn_of_mem_nodup st.files hnd it hmem, (isPending_iff it).mp hp]
  refine ⟨afterUpdates_eq_convLoop env _ _, ?_⟩
  intro k hk
  obtain ⟨hA, hB, hC, hD⟩ :=
    convSeq_main env (st.files.filter isPending) hsnd st.files hpend k hk
  refine ⟨hA, ?_, hC, hD⟩
  rw [hB]
  exact outcomeStatus_terminal env _

/-- C3 witness: on the one-pending-item state the full trace ends in the
loop's result. -/
theorem c3_ordering_witness :
    afterUpdates envOk (st1.files.filter isPending) st1.files
        (2 * (st1.files.filter isPending).length)
      = convLoop envOk (st1.files.filter isPending) st1.files :=
  (c3_ordering envOk st1 (by decide)).1

/-! ### Interference of removals with the conversion loop -/

theorem convLoopI_cons (env : Url → ConvOutcome) (it : FileItem) (rids : List Nat)
    (rest : List (FileItem × List Nat)) (fs : List FileItem) :
    convLoopI env ((it, rids) :: rest) fs =
      convLoopI env rest (applyOutcome env it (removeIds rids (markConverting it.id fs))) := rfl

theorem mem_removeIds : ∀ (rids : List Nat) (fs : List FileItem) (f : FileItem),
    f ∈ removeIds rids fs → f ∈ fs := by
  intro rids
  induction rids with
  | nil => intro fs f hf; exact hf
  | cons r rids' ih =>
      intro fs f hf
      have : f ∈ fs.filter (fun g => ! (g.id == r)) := ih _ f hf
      exact List.mem_of_mem_filter this

theorem mem_updateItem_decomp (tid : Nat) (h : FileItem → FileItem) (fs : List FileItem)
    (f' : FileItem) (hf' : f' ∈ updateItem tid h fs) :
    ∃ g ∈ fs, f' = if g.id == tid then h g else g := by
  obtain ⟨g, hg, heq⟩ := List.mem_map.mp hf'
  exact ⟨g, hg, heq.symm⟩

theorem mem_applyOutcome_decomp (env : Url → ConvOutcome) (it : FileItem)
    (fs : List FileItem) (f' : FileItem) (hf' : f' ∈ applyOutcome env it fs) :
    ∃ g ∈ fs, f'.id = g.id ∧ (f'.id = it.id → f'.status = Status.converted ∨ f'.status = Status.error) := by
  cases hrc : runConversion env it.webpUrl with
  | ok png =>
      rw [applyOutcome_ok env it fs png hrc] at hf'
      obtain ⟨g, hg, heq⟩ := mem_updateItem_decomp it.id _ fs f' hf'
      by_cases hb : (g.id == it.id) = true
      · rw [heq, if_pos hb]
        exact ⟨g, hg, rfl, fun _ => Or.inl rfl⟩
      · rw [heq, if_neg hb]
        refine ⟨g, hg, rfl, fun hgid => ?_⟩
        exact absurd (by simp [hgid]) hb
  | error msg =>
      rw [applyOutcome_err env it fs msg hrc] at hf'
      obtain ⟨g, hg, heq⟩ := mem_updateItem_decomp it.id _ fs f' hf'
      by_cases hb : (g.id == it.id) = true
      · rw [heq, if_pos hb]
        exact ⟨g, hg, rfl, fun _ => Or.inr rfl⟩
      · rw [heq, if_neg hb]
        refine ⟨g, hg, rfl, fun hgid => ?_⟩
        exact absurd (by simp [hgid]) hb

theorem mem_markConverting_decomp (tid : Nat) (fs : List FileItem) (f' : FileItem)
    (hf' : f' ∈ markConverting tid fs) : ∃ g ∈ fs, f'.id = g.id := by
  obtain ⟨g, hg, heq⟩ := mem_updateItem_decomp tid _ fs f' hf'
  by_cases hb : (g.id == tid) = true
  · rw [heq, if_pos hb]
    exact ⟨g, hg, rfl⟩
  · rw [heq, if_neg hb]
    exact ⟨g, hg, rfl⟩

theorem step_ids_from (env : Url → ConvOutcome) (it : FileItem) (rids : List Nat)
    (fs : List FileItem) (f' : FileItem)
    (hf' : f' ∈ applyOutcome env it (removeIds rids (markConverting it.id fs))) :
    ∃ g ∈ fs, f'.id = g.id := by
  obtain ⟨g1, hg1, hid1, _⟩ := mem_applyOutcome_decomp env it _ f' hf'
  have hg1' : g1 ∈ markConverting it.id fs := mem_removeIds rids _ g1 hg1
  obtain ⟨g0, hg0, hid0⟩ := mem_markConverting_decomp it.id fs g1 hg1'
  exact ⟨g0, hg0, hid1.trans hid0⟩

theorem step_mem_untouched (env : Url → ConvOutcome) (it : FileItem) (rids : List Nat)
    (fs : List FileItem) (f : FileItem)
    (hf : f ∈ applyOutcome env it (removeIds rids (markConverting it.id fs)))
    (hne : f.id ≠ it.id) : f ∈ fs := by
  cases hrc : runConversion env it.webpUrl with
  | ok png =>
      rw [applyOutcome_ok env it _ png hrc] at hf
      obtain ⟨g, hg, hfeq⟩ := mem_updateItem_decomp it.id _ _ f hf
      by_cases hb : (g.id == it.id) = true
      · rw [hfeq, if_pos hb] at hne ⊢
        exact absurd (by simpa using hb) hne
      · rw [hfeq, if_neg hb] at hne ⊢
        have hg' : g ∈ markConverting it.id fs := mem_removeIds rids _ g hg
        obtain ⟨g0, hg0, hgeq⟩ := mem_updateItem_decomp it.id _ fs g hg'
        by_cases hb0 : (g0.id == it.id) = true
        · rw [hgeq, if_pos hb0] at hne
          exact absurd (by simpa using hb0) hne
        · rw [hgeq, if_neg hb0]
          exact hg0
  | error msg =>
      rw [applyOutcome_err env it _ msg hrc] at hf
      obtain ⟨g, hg, hfeq⟩ := mem_updateItem_decomp it.id _ _ f hf
      by_cases hb : (g.id == it.id) = true
      · rw [hfeq, if_pos hb] at hne ⊢
        exact absurd (by simpa using hb) hne
      · rw [hfeq, if_neg hb] at hne ⊢
        have hg' : g ∈ markConverting it.id fs := mem_removeIds rids _ g hg
        obtain ⟨g0, hg0, hgeq⟩ := mem_updateItem_decomp it.id _ fs g hg'
        by_cases hb0 : (g0.id == it.id) = true
        · rw [hgeq, if_pos hb0] at hne
          exact absurd (by simpa using hb0) hne
        · rw [hgeq, if_neg hb0]
          exact hg0

theorem mem_convLoopI_untouched (env : Url → ConvOutcome) :
    ∀ (pairs : List (FileItem × List Nat)) (fs : List FileItem) (f : FileItem),
      f ∈ convLoopI env pairs fs → (∀ p ∈ pairs, p.1.id ≠ f.id) → f ∈ fs := by
  intro pairs
  induction pairs with
  | nil => intro fs f hf _; exact hf
  | cons p rest ih =>
      intro fs f hf hne
      obtain ⟨it, rids⟩ := p
      rw [convLoopI_cons] at hf
      have hf3 := ih _ f hf (fun q hq => hne q (List.mem_cons_of_mem _ hq))
      exact step_mem_untouched env it rids fs f hf3
        (fun h => hne (it, rids) (List.mem_cons_self _ rest) h.symm)

theorem removeIds_nil (fs : List FileItem) : removeIds [] fs = fs := rfl

/-- C10: if an item of the pending snapshot is removed before its turn or
mid-conversion, every per-item status update targeting its id leaves the
batch unchanged (first conjunct: an update whose id matches no batch member
is the identity); an id absent from the batch is never re-added by the loop
(second conjunct); every snapshot item still present when the loop ends has
been driven to a terminal state (third conjunct); and with no interleaved
removals the interfered loop coincides with the plain `convertAll` loop
(fourth conjunct). -/
theorem c10_interference (env : Url → ConvOutcome) :
    (∀ (h : FileItem → FileItem) (tid : Nat) (fs : List FileItem),
       (∀ f ∈ fs, f.id ≠ tid) → updateItem tid h fs = fs) ∧
    (∀ (pairs : List (FileItem × List Nat)) (fs : List FileItem) (tid : Nat),
       (∀ f ∈ fs, f.id ≠ tid) → ∀ f ∈ convLoopI env pairs fs, f.id ≠ tid) ∧
    (∀ (pairs : List (FileItem × List Nat)) (fs : List FileItem),
       (pairs.map (fun p => p.1.id)).Nodup →
       ∀ f ∈ convLoopI env pairs fs, f.id ∈ pairs.map (fun p => p.1.id) →
         f.status = Status.converted ∨ f.status = Status.error) ∧
    (∀ (snap fs : List FileItem),
       convLoopI env (snap.map (fun it => (it, ([] : List Nat)))) fs = convLoop env snap fs) := by
  refine ⟨fun h tid fs hne => updateItem_nomatch tid h fs hne, ?_, ?_, ?_⟩
  · intro pairs
    induction pairs with
    | nil => intro fs tid hne f hf; exact hne f hf
    | cons p rest ih =>
        intro fs tid hne f hf
        obtain ⟨it, rids⟩ := p
        rw [convLoopI_cons] at hf
        refine ih _ tid ?_ f hf
        intro g hg
        obtain ⟨g0, hg0, hid⟩ := step_ids_from env it rids fs g hg
        rw [hid]
        exact hne g0 hg0
  · intro pairs
    induction pairs with
    | nil => intro fs _ f _ hid; cases hid
    | cons p rest ih =>
        intro fs hnd f hf hid
        obtain ⟨it, rids⟩ := p
        rw [convLoopI_cons] at hf
        rw [List.map_cons, List.nodup_cons] at hnd
        obtain ⟨hnm, hnd'⟩ := hnd
        rcases List.mem_cons.mp hid with heq | hmem
        · have heq' : f.id = it.id := heq
          have hrest : ∀ q ∈ rest, q.1.id ≠ f.id := by
            intro q hq hqid
            apply hnm
            show it.id ∈ List.map (fun p => p.1.id) rest
            rw [← heq', ← hqid]
            exact List.mem_map.mpr ⟨q, hq, rfl⟩
          have hf3 := mem_convLoopI_untouched env rest _ f hf hrest
          obtain ⟨g, hg, hgid, hterm⟩ := mem_applyOutcome_decomp env it _ f hf3
          exact hterm heq'
        · exact ih _ hnd' f hf hmem
  · intro snap
    induction snap with
    | nil => intro fs; rfl
    | cons it snap' ih =>
        intro fs
        rw [List.map_cons, convLoopI_cons, removeIds_nil]
        exact ih (convStep env it fs)

/-- C10 witness: with items A (id 0) and B (id 1) both pending and B removed
while A's conversion is awaited, the surviving snapshot item A ends
terminal. -/
theorem c10_interference_witness :
    wItem.status = Status.converted ∨ wItem.status = Status.error :=
  (c10_interference envOk).2.2.1 [(pItem, [1]), (pItemB, [])] [pItem, pItemB] (by decide)
    wItem (by decide) (by decide)

/-! ### Download -/

theorem drop_len_append (l₁ l₂ : List Char) : (l₁ ++ l₂).drop l₁.length = l₂ := by
  induction l₁ with
  | nil => rfl
  | cons x xs ih =>
      simp only [List.cons_append, List.length_cons, List.drop_succ_cons]
      exact ih

theorem take_len_append (l₁ l₂ : List Char) : (l₁ ++ l₂).take l₁.length = l₁ := by
  induction l₁ with
  | nil => rfl
  | cons x xs ih =>
      simp only [List.cons_append, List.length_cons, List.take_succ_cons]
      rw [ih]

theorem replaceWebpExt_append (base : List Char) :
    replaceWebpExt (base ++ webpExt) = base ++ pngExt := by
  unfold replaceWebpExt
  have hlen : (base ++ webpExt).length = base.length + 5 := by
    rw [List.length_append]
    rfl
  rw [hlen, Nat.add_sub_cancel, drop_len_append, take_len_append, if_pos rfl]

/-- C6: `download(id)` is a no-op when no item with that id exists or the
item is not converted (by the output-presence invariant this is exactly
"has no output"); otherwise it saves the output under the source filename
with a final ".webp" replaced by ".png" (`name.webp` becomes `name.png`). -/
theorem c6_download (st : AppState) (id : Nat)
    (hinv : ∀ f ∈ st.files, (f.pngUrl ≠ none ↔ f.status = Status.converted)) :
    ((∀ f ∈ st.files, f.id = id → f.status ≠ Status.converted) →
       handleDownload id st = none) ∧
    (∀ f, st.files.find? (fun g => g.id == id) = some f → f.status = Status.converted →
       ∃ u, f.pngUrl = some u ∧
         handleDownload id st = some { href := u, filename := replaceWebpExt f.file.name }) ∧
    (∀ base : List Char, replaceWebpExt (base ++ webpExt) = base ++ pngExt) := by
  refine ⟨?_, ?_, replaceWebpExt_append⟩
  · intro hall
    unfold handleDownload
    cases hfind : st.files.find? (fun g => g.id == id) with
    | none => rfl
    | some f =>
        have hmem : f ∈ st.files := List.mem_of_find?_eq_some hfind
        have hid : f.id = id := by
          have := List.find?_some hfind
          simpa using this
        have hnotconv := hall f hmem hid
        have hpng : f.pngUrl = none := by
          cases hp : f.pngUrl with
          | none => rfl
          | some u =>
              exact absurd ((hinv f hmem).mp (by rw [hp]; intro hc; cases hc)) hnotconv
        simp only [hpng]
  · intro f hfind hconv
    have hmem : f ∈ st.files := List.mem_of_find?_eq_some hfind
    have hne : f.pngUrl ≠ none := (hinv f hmem).mpr hconv
    cases hp : f.pngUrl with
    | none => exact absurd hp hne
    | some u =>
        refine ⟨u, rfl, ?_⟩
        unfold handleDownload
        simp only [hfind, hp]

/-- C6 witness: on the one-pending-item state, download of the (unconverted)
item triggers nothing. -/
theorem c6_download_witness : handleDownload 0 st1 = none :=
  (c6_download st1 0 (by decide)).1 (by decide)

/-- C7 (evaluation at the failing input): handing three valid WebP files and
one invalid file to the file-selection interface in a single add yields an
empty batch and no skipped-files message — `FileUpload` forwards only the
first file, as a bare `File`, and `App.handleFileSelect`'s `Array.from` over
a non-iterable `File` yields no files — not the 3 items and skipped-count 1
the specification requires. -/
theorem c7_ui_add :
    (uiAddFiles c7sel initState).files.length = 0 ∧
    (uiAddFiles c7sel initState).globalError = "" ∧
    ¬ ((uiAddFiles c7sel initState).files.length = 3) := by decide

/-! ### addFiles -/

theorem mkNewItems_cons (f : File) (rest : List File) (nid nurl : Nat) :
    mkNewItems (f :: rest) nid nurl =
      if accept f then
        { id := nid, file := f, webpUrl := Url.obj nurl, pngUrl := none,
          status := Status.pending, error := none } :: mkNewItems rest (nid + 1) (nurl + 1)
      else mkNewItems rest nid nurl := rfl

theorem mkNewItems_cons_pos (f : File) (rest : List File) (nid nurl : Nat)
    (h : accept f = true) :
    mkNewItems (f :: rest) nid nurl =
      { id := nid, file := f, webpUrl := Url.obj nurl, pngUrl := none,
        status := Status.pending, error := none } :: mkNewItems rest (nid + 1) (nurl + 1) := by
  rw [mkNewItems_cons, if_pos h]

theorem mkNewItems_cons_neg (f : File) (rest : List File) (nid nurl : Nat)
    (h : ¬ accept f = true) :
    mkNewItems (f :: rest) nid nurl = mkNewItems rest nid nurl := by
  rw [mkNewItems_cons, if_neg h]

theorem mkNewItems_file : ∀ (sel : List File) (nid nurl : Nat),
    (mkNewItems sel nid nurl).map (fun it => it.file) = sel.filter accept := by
  intro sel
  induction sel with
  | nil => intro nid nurl; rfl
  | cons f rest ih =>
      intro nid nurl
      by_cases h : accept f = true
      · unfold mkNewItems
        rw [if_pos h, List.filter_cons_of_pos h, List.map_cons]
        rw [ih (nid + 1) (nurl + 1)]
      · have h' : accept f = false := by
          cases hb : accept f
          · rfl
          · exact absurd hb h
        unfold mkNewItems
        rw [if_neg (by simp [h']), List.filter_cons_of_neg (by simp [h'])]
        exact ih nid nurl

theorem mkNewItems_bounds : ∀ (sel : List File) (nid nurl : Nat) (it : FileItem),
    it ∈ mkNewItems sel nid nurl →
      it.status = Status.pending ∧ it.pngUrl = none ∧ it.error = none ∧
      nid ≤ it.id ∧ it.id < nid + (mkNewItems sel nid nurl).length ∧
      (∃ m, it.webpUrl = Url.obj m ∧ nurl ≤ m ∧
        m < nurl + (mkNewItems sel nid nurl).length) := by
  intro sel
  induction sel with
  | nil => intro nid nurl it hit; cases hit
  | cons f rest ih =>
      intro nid nurl it hit
      by_cases h : accept f = true
      · rw [mkNewItems_cons_pos f rest nid nurl h] at hit ⊢
        rcases List.mem_cons.mp hit with rfl | hmem
        · refine ⟨rfl, rfl, rfl, Nat.le_refl nid, ?_, nurl, rfl, Nat.le_refl nurl, ?_⟩
          · simp only [List.length_cons]
            omega
          · simp only [List.length_cons]
            omega
        · obtain ⟨h1, h2, h3, h4, h5, m, hm1, hm2, hm3⟩ := ih (nid + 1) (nurl + 1) it hmem
          refine ⟨h1, h2, h3, by omega, ?_, m, hm1, by omega, ?_⟩
          · simp only [List.length_cons]
            omega
          · simp only [List.length_cons]
            omega
      · rw [mkNewItems_cons_neg f rest nid nurl h] at hit ⊢
        exact ih nid nurl it hit

theorem mkNewItems_ids_nodup : ∀ (sel : List File) (nid nurl : Nat),
    ((mkNewItems sel nid nurl).map (fun f => f.id)).Nodup := by
  intro sel
  induction sel with
  | nil => intro nid nurl; exact List.nodup_nil
  | cons f rest ih =>
      intro nid nurl
      by_cases h : accept f = true
      · rw [mkNewItems_cons_pos f rest nid nurl h]
        rw [List.map_cons, List.nodup_cons]
        refine ⟨?_, ih (nid + 1) (nurl + 1)⟩
        intro hmem
        obtain ⟨g, hg, hgid⟩ := List.mem_map.mp hmem
        obtain ⟨-, -, -, h4, -, -⟩ := mkNewItems_bounds rest (nid + 1) (nurl + 1) g hg
        have hgid' : g.id = nid := hgid
        omega
      · rw [mkNewItems_cons_neg f rest nid nurl h]
        exact ih nid nurl

theorem mkNewItems_webp_list : ∀ (sel : List File) (nid nurl : Nat),
    (mkNewItems sel nid nurl).map (fun f => f.webpUrl) =
      objRange nurl (mkNewItems sel nid nurl).length := by
  intro sel
  induction sel with
  | nil => intro nid nurl; rfl
  | cons f rest ih =>
      intro nid nurl
      by_cases h : accept f = true
      · rw [mkNewItems_cons_pos f rest nid nurl h]
        rw [List.map_cons, List.length_cons]
        show Url.obj nurl :: _ = objRange nurl ((mkNewItems rest (nid + 1) (nurl + 1)).length + 1)
        rw [show ∀ n, objRange nurl (n + 1) = Url.obj nurl :: objRange (nurl + 1) n from
          fun n => rfl]
        rw [ih (nid + 1) (nurl + 1)]
      · rw [mkNewItems_cons_neg f rest nid nurl h]
        exact ih nid nurl

theorem handleFileSelect_files (sel : List File) (st : AppState) :
    (handleFileSelect sel st).files = st.files ++ mkNewItems sel st.nextId st.nextUrl := by
  simp only [handleFileSelect]
  by_cases hinv : 0 < (sel.filter (fun f => ! accept f)).length
  · rw [if_pos hinv]
    by_cases hval : 0 < (mkNewItems sel st.nextId st.nextUrl).length
    · rw [if_pos hval]
    · rw [if_neg hval]
      have : mkNewItems sel st.nextId st.nextUrl = [] :=
        List.length_eq_zero.mp (by omega)
      rw [this, List.append_nil]
  · rw [if_neg hinv]
    by_cases hval : 0 < (mkNewItems sel st.nextId st.nextUrl).length
    · rw [if_pos hval]
    · rw [if_neg hval]
      have : mkNewItems sel st.nextId st.nextUrl = [] :=
        List.length_eq_zero.mp (by omega)
      rw [this, List.append_nil]

theorem handleFileSelect_fields (sel : List File) (st : AppState) :
    (handleFileSelect sel st).nextId
        = st.nextId + (mkNewItems sel st.nextId st.nextUrl).length ∧
    (handleFileSelect sel st).nextUrl
        = st.nextUrl + (mkNewItems sel st.nextId st.nextUrl).length ∧
    (handleFileSelect sel st).createdUrls
        = st.createdUrls ++ (mkNewItems sel st.nextId st.nextUrl).map (fun f => f.webpUrl) ∧
    (handleFileSelect sel st).revoked = st.revoked := by
  simp only [handleFileSelect]
  by_cases hinv : 0 < (sel.filter (fun f => ! accept f)).length
  · rw [if_pos hinv]
    exact ⟨rfl, rfl, rfl, rfl⟩
  · rw [if_neg hinv]
    exact ⟨rfl, rfl, rfl, rfl⟩

theorem handleFileSelect_globalError (sel : List File) (st : AppState) :
    (handleFileSelect sel st).globalError =
      if 0 < (sel.filter (fun f => ! accept f)).length
      then skippedMsg (sel.filter (fun f => ! accept f)).length
      else "" := by
  simp only [handleFileSelect]
  by_cases hinv : 0 < (sel.filter (fun f => ! accept f)).length
  · rw [if_pos hinv, if_pos hinv]
  · rw [if_neg hinv, if_neg hinv]

/-- C4: each accepted file of the selection becomes a new pending item with a
fresh unique id, appended in input order; each rejected file creates no item
and is only counted in the single aggregate skipped-files message, whose
count equals the number of rejected files (and which is absent when nothing
was rejected). -/
theorem c4_addFiles (sel : List File) (st : AppState)
    (hid : ∀ f ∈ st.files, f.id < st.nextId) :
    ((handleFileSelect sel st).files = st.files ++ mkNewItems sel st.nextId st.nextUrl) ∧
    ((mkNewItems sel st.nextId st.nextUrl).map (fun it => it.file) = sel.filter accept) ∧
    (∀ it ∈ mkNewItems sel st.nextId st.nextUrl,
       it.status = Status.pending ∧ it.pngUrl = none ∧ it.error = none) ∧
    (((mkNewItems sel st.nextId st.nextUrl).map (fun f => f.id)).Nodup ∧
     ∀ it ∈ mkNewItems sel st.nextId st.nextUrl, ∀ f ∈ st.files, f.id ≠ it.id) ∧
    (0 < (sel.filter (fun f => ! accept f)).length →
       (handleFileSelect sel st).globalError
         = skippedMsg (sel.filter (fun f => ! accept f)).length) ∧
    ((sel.filter (fun f => ! accept f)).length = 0 →
       (handleFileSelect sel st).globalError = "") := by
  refine ⟨handleFileSelect_files sel st, mkNewItems_file sel st.nextId st.nextUrl, ?_, ?_, ?_, ?_⟩
  · intro it hit
    obtain ⟨h1, h2, h3, -, -, -⟩ := mkNewItems_bounds sel st.nextId st.nextUrl it hit
    exact ⟨h1, h2, h3⟩
  · refine ⟨mkNewItems_ids_nodup sel st.nextId st.nextUrl, ?_⟩
    intro it hit f hf
    obtain ⟨-, -, -, h4, -, -⟩ := mkNewItems_bounds sel st.nextId st.nextUrl it hit
    have := hid f hf
    omega
  · intro hpos
    rw [handleFileSelect_globalError, if_pos hpos]
  · intro hzero
    rw [handleFileSelect_globalError, if_neg (by omega)]

/-- C4 witness: adding one valid and one invalid file produces the aggregate
skipped message with count 1. -/
theorem c4_addFiles_witness :
    (handleFileSelect [wFile, wBad] initState).globalError = skippedMsg 1 :=
  (c4_addFiles [wFile, wBad] initState (by decide)).2.2.2.2.1 (by decide)

/-! ### Registry accounting helpers -/

theorem objRange_succ (s n : Nat) : objRange s (n + 1) = Url.obj s :: objRange (s + 1) n := rfl

theorem mem_objRange_bound : ∀ (n s : Nat) (u : Url), u ∈ objRange s n →
    ∃ m, u = Url.obj m ∧ s ≤ m ∧ m < s + n := by
  intro n
  induction n with
  | zero => intro s u hu; cases hu
  | succ n ih =>
      intro s u hu
      rw [objRange_succ] at hu
      rcases List.mem_cons.mp hu with rfl | hmem
      · exact ⟨s, rfl, Nat.le_refl s, by omega⟩
      · obtain ⟨m, hm1, hm2, hm3⟩ := ih (s + 1) u hmem
        exact ⟨m, hm1, by omega, by omega⟩

theorem objRange_nodup : ∀ (n s : Nat), (objRange s n).Nodup := by
  intro n
  induction n with
  | zero => intro s; exact List.nodup_nil
  | succ n ih =>
      intro s
      rw [objRange_succ, List.nodup_cons]
      refine ⟨?_, ih (s + 1)⟩
      intro hmem
      obtain ⟨m, hm1, hm2, hm3⟩ := mem_objRange_bound n (s + 1) _ hmem
      have : s = m := by
        injection hm1
      omega

theorem objRange_append : ∀ (m s k : Nat),
    objRange s (m + k) = objRange s m ++ objRange (s + m) k := by
  intro m
  induction m with
  | zero =>
      intro s k
      simp only [Nat.zero_add, Nat.add_zero]
      rfl
  | succ m ih =>
      intro s k
      have e : m + 1 + k = (m + k) + 1 := by omega
      rw [e, objRange_succ, objRange_succ, ih (s + 1) k, List.cons_append]
      have e2 : s + 1 + m = s + (m + 1) := by omega
      rw [e2]

theorem countUrl_append (u : Url) (l₁ l₂ : List Url) :
    countUrl u (l₁ ++ l₂) = countUrl u l₁ + countUrl u l₂ := by
  unfold countUrl
  exact List.countP_append _ _ _

theorem countUrl_perm (u : Url) (l₁ l₂ : List Url) (h : List.Perm l₁ l₂) :
    countUrl u l₁ = countUrl u l₂ :=
  h.countP_eq _

theorem countUrl_eq_zero_of_not_mem (u : Url) :
    ∀ l : List Url, u ∉ l → countUrl u l = 0 := by
  intro l
  induction l with
  | nil => intro _; rfl
  | cons a l ih =>
      intro hnm
      have ha : ¬ (a = u) := fun h => hnm (h ▸ List.mem_cons_self a l)
      unfold countUrl at ih ⊢
      rw [List.countP_cons]
      have : (decide (a = u)) = false := by
        simp [ha]
      rw [this]
      simp only [Bool.false_eq_true, if_false, Nat.add_zero]
      exact ih fun hm => hnm (List.mem_cons_of_mem a hm)

theorem countUrl_eq_one_of_nodup_mem (u : Url) :
    ∀ l : List Url, l.Nodup → u ∈ l → countUrl u l = 1 := by
  intro l
  induction l with
  | nil => intro _ hm; cases hm
  | cons a l ih =>
      intro hnd hm
      rw [List.nodup_cons] at hnd
      obtain ⟨hanm, hnd'⟩ := hnd
      unfold countUrl
      rw [List.countP_cons]
      rcases List.mem_cons.mp hm with rfl | hmem
      · have hz : countUrl u l = 0 := countUrl_eq_zero_of_not_mem u l hanm
        unfold countUrl at hz
        rw [hz]
        simp
      · have ha : ¬ (a = u) := fun h => hanm (h ▸ hmem)
        have : (decide (a = u)) = false := by
          simp [ha]
        rw [this]
        simp only [Bool.false_eq_true, if_false, Nat.add_zero]
        have := ih hnd' hmem
        unfold countUrl at this
        exact this

theorem countUrl_le_one_of_nodup (u : Url) (l : List Url) (hnd : l.Nodup) :
    countUrl u l ≤ 1 := by
  by_cases hm : u ∈ l
  · rw [countUrl_eq_one_of_nodup_mem u l hnd hm]
  · rw [countUrl_eq_zero_of_not_mem u l hm]
    omega

theorem revokeItemUrls_eq (r : List Url) (f : FileItem)
    (hw : ∃ n, f.webpUrl = Url.obj n)
    (hp : ∀ u, f.pngUrl = some u → ∃ s, u = Url.data s) :
    revokeItemUrls r f = r ++ [f.webpUrl] := by
  obtain ⟨n, hn⟩ := hw
  unfold revokeItemUrls
  cases hpu : f.pngUrl with
  | none =>
      show revokeUrl f.webpUrl r = r ++ [f.webpUrl]
      rw [hn]
      rfl
  | some u =>
      obtain ⟨s, hs⟩ := hp u hpu
      show revokeUrl u (revokeUrl f.webpUrl r) = r ++ [f.webpUrl]
      rw [hs, hn]
      rfl

theorem foldl_revokeItemUrls :
    ∀ (fs : List FileItem),
      (∀ f ∈ fs, (∃ n, f.webpUrl = Url.obj n) ∧
        (∀ u, f.pngUrl = some u → ∃ s, u = Url.data s)) →
      ∀ r : List Url, fs.foldl revokeItemUrls r = r ++ fs.map (fun f => f.webpUrl) := by
  intro fs
  induction fs with
  | nil => intro _ r; rw [List.map_nil, List.append_nil]; rfl
  | cons f rest ih =>
      intro h r
      obtain ⟨hw, hp⟩ := h f (List.mem_cons_self f rest)
      show rest.foldl revokeItemUrls (revokeItemUrls r f) = _
      rw [revokeItemUrls_eq r f hw hp,
        ih (fun g hg => h g (List.mem_cons_of_mem f hg)) (r ++ [f.webpUrl]),
        List.map_cons, List.append_assoc]
      rfl

theorem files_perm_remove (id : Nat) :
    ∀ (fs : List FileItem), (fs.map (fun f => f.id)).Nodup →
      ∀ f, fs.find? (fun g => g.id == id) = some f →
        List.Perm fs (f :: fs.filter (fun g => ! (g.id == id))) := by
  intro fs
  induction fs with
  | nil => intro _ f hf; cases hf
  | cons x rest ih =>
      intro hnd f hf
      rw [List.map_cons, List.nodup_cons] at hnd
      obtain ⟨hnm, hnd'⟩ := hnd
      by_cases hb : (x.id == id) = true
      · simp only [List.find?_cons, hb] at hf
        have hfx : f = x := by
          injection hf with h
          exact h.symm
        rw [hfx]
        have hxid : x.id = id := by simpa using hb
        have hfilter : rest.filter (fun g => ! (g.id == id)) = rest := by
          apply filter_eq_self_of
          intro g hg
          have hgne : g.id ≠ id := by
            intro hgid
            exact hnm (List.mem_map.mpr ⟨g, hg, by rw [hgid, hxid]⟩)
          simp [hgne]
        rw [List.filter_cons_of_neg (by simp [hb]), hfilter]
      · have hb' : (x.id == id) = false := by
          cases hbb : x.id == id
          · rfl
          · exact absurd hbb hb
        simp only [List.find?_cons, hb'] at hf
        have hperm := ih hnd' f hf
        rw [List.filter_cons_of_pos (by simp [hb'])]
        have h1 : List.Perm (x :: rest) (x :: f :: rest.filter (fun g => ! (g.id == id))) :=
          hperm.cons x
        have h2 : List.Perm (x :: f :: rest.filter (fun g => ! (g.id == id)))
            (f :: x :: rest.filter (fun g => ! (g.id == id))) :=
          List.Perm.swap f x _
        exact h1.trans h2

/-! ### The reachable-state invariant -/

theorem map_congr_mem {α β : Type} (l : List α) (f₁ f₂ : α → β)
    (h : ∀ x ∈ l, f₁ x = f₂ x) : l.map f₁ = l.map f₂ := by
  induction l with
  | nil => rfl
  | cons x xs ih =>
      simp only [List.map_cons, List.cons.injEq]
      exact ⟨h x (List.mem_cons_self x xs), ih fun y hy => h y (List.mem_cons_of_mem x hy)⟩

theorem convG_id (env : Url → ConvOutcome) (f : FileItem) :
    (if isPending f then finalize env f else f).id = f.id := by
  by_cases hp : isPending f = true
  · rw [if_pos hp]
    exact finalize_id env f
  · rw [if_neg hp]

theorem convG_webp (env : Url → ConvOutcome) (f : FileItem) :
    (if isPending f then finalize env f else f).webpUrl = f.webpUrl := by
  by_cases hp : isPending f = true
  · rw [if_pos hp]
    exact finalize_webp env f
  · rw [if_neg hp]

theorem stInv_addFiles (sel : List File) (st : AppState) (h : StInv st) :
    StInv (handleFileSelect sel st) := by
  obtain ⟨hn1, hn2, hn3, hn4⟩ := handleFileSelect_fields sel st
  have hfe := handleFileSelect_files sel st
  have hNb := mkNewItems_bounds sel st.nextId st.nextUrl
  refine ⟨?_, ?_, ?_, ?_, ?_, ?_, ?_, ?_, ?_, ?_⟩
  · rw [hfe, hn1]
    intro f hf
    rcases List.mem_append.mp hf with hold | hnew
    · have := h.idBound f hold
      omega
    · obtain ⟨-, -, -, -, h5, -⟩ := hNb f hnew
      omega
  · rw [hfe, List.map_append, List.nodup_append]
    refine ⟨h.idsNodup, mkNewItems_ids_nodup sel st.nextId st.nextUrl, ?_⟩
    intro a ha hb
    obtain ⟨f, hf, rfl⟩ := List.mem_map.mp ha
    obtain ⟨g, hg, hgid⟩ := List.mem_map.mp hb
    have h1 := h.idBound f hf
    obtain ⟨-, -, -, h4, -, -⟩ := hNb g hg
    omega
  · rw [hfe, hn2]
    intro f hf
    rcases List.mem_append.mp hf with hold | hnew
    · obtain ⟨n, hn, hlt⟩ := h.webpObj f hold
      exact ⟨n, hn, by omega⟩
    · obtain ⟨-, -, -, -, -, m, hm1, hm2, hm3⟩ := hNb f hnew
      exact ⟨m, hm1, by omega⟩
  · rw [hfe, List.map_append, List.nodup_append]
    refine ⟨h.webpNodup, ?_, ?_⟩
    · rw [mkNewItems_webp_list]
      exact objRange_nodup _ _
    · intro a ha hb
      obtain ⟨f, hf, rfl⟩ := List.mem_map.mp ha
      obtain ⟨g, hg, hgw⟩ := List.mem_map.mp hb
      obtain ⟨n, hn, hnlt⟩ := h.webpObj f hf
      obtain ⟨-, -, -, -, -, m, hm1, hm2, hm3⟩ := hNb g hg
      rw [hn, hm1] at hgw
      have : m = n := by injection hgw
      omega
  · rw [hfe]
    intro f hf u hu
    rcases List.mem_append.mp hf with hold | hnew
    · exact h.pngData f hold u hu
    · obtain ⟨-, h2, -, -, -, -⟩ := hNb f hnew
      rw [h2] at hu
      cases hu
  · rw [hfe]
    intro f hf
    rcases List.mem_append.mp hf with hold | hnew
    · exact h.pngIff f hold
    · obtain ⟨h1, h2, -, -, -, -⟩ := hNb f hnew
      rw [h1, h2]
      constructor
      · intro hc
        exact absurd rfl hc
      · intro hc
        cases hc
  · rw [hfe]
    intro f hf
    rcases List.mem_append.mp hf with hold | hnew
    · exact h.errIff f hold
    · obtain ⟨h1, -, h3, -, -, -⟩ := hNb f hnew
      rw [h1, h3]
      constructor
      · intro hc
        exact absurd rfl hc
      · intro hc
        cases hc
  · rw [hfe]
    intro f hf
    rcases List.mem_append.mp hf with hold | hnew
    · exact h.notConverting f hold
    · obtain ⟨h1, -, -, -, -, -⟩ := hNb f hnew
      rw [h1]
      simp
  · rw [hn3, hn2, h.createdEq, mkNewItems_webp_list]
    rw [objRange_append st.nextUrl 0 (mkNewItems sel st.nextId st.nextUrl).length, Nat.zero_add]
  · rw [hfe, hn3, hn4, List.map_append]
    refine List.Perm.trans (h.acct.append_right _) ?_
    rw [List.append_assoc, List.append_assoc]
    exact List.Perm.append_left _ List.perm_append_comm

theorem stInv_convert (env : Url → ConvOutcome) (st : AppState) (h : StInv st) :
    StInv (handleConvertAll env st) := by
  have hfe := handleConvertAll_files_eq env st h.idsNodup
  obtain ⟨hg1, hg2, hg3, hg4, hg5⟩ := handleConvertAll_frame env st
  have hmapid : ((st.files.map (fun f => if isPending f then finalize env f else f)).map
      (fun f => f.id)) = st.files.map (fun f => f.id) := by
    rw [List.map_map]
    exact map_congr_mem _ _ _ fun f _ => convG_id env f
  have hmapwebp : ((st.files.map (fun f => if isPending f then finalize env f else f)).map
      (fun f => f.webpUrl)) = st.files.map (fun f => f.webpUrl) := by
    rw [List.map_map]
    exact map_congr_mem _ _ _ fun f _ => convG_webp env f
  refine ⟨?_, ?_, ?_, ?_, ?_, ?_, ?_, ?_, ?_, ?_⟩
  · rw [hfe, hg2]
    intro f' hf'
    obtain ⟨f, hf, rfl⟩ := List.mem_map.mp hf'
    rw [convG_id env f]
    exact h.idBound f hf
  · rw [hfe, hmapid]
    exact h.idsNodup
  · rw [hfe, hg3]
    intro f' hf'
    obtain ⟨f, hf, rfl⟩ := List.mem_map.mp hf'
    rw [convG_webp env f]
    exact h.webpObj f hf
  · rw [hfe, hmapwebp]
    exact h.webpNodup
  · rw [hfe]
    intro f' hf' u hu
    obtain ⟨f, hf, rfl⟩ := List.mem_map.mp hf'
    by_cases hp : isPending f = true
    · rw [if_pos hp] at hu
      cases hrc : runConversion env f.webpUrl with
      | ok png =>
          rw [finalize_ok env f png hrc] at hu
          have hu' : some (Url.data png) = some u := hu
          injection hu' with h'
          exact ⟨png, h'.symm⟩
      | error msg =>
          rw [finalize_err env f msg hrc] at hu
          exact h.pngData f hf u hu
    · rw [if_neg hp] at hu
      exact h.pngData f hf u hu
  · rw [hfe]
    intro f' hf'
    obtain ⟨f, hf, rfl⟩ := List.mem_map.mp hf'
    by_cases hp : isPending f = true
    · have hpend : f.status = Status.pending := (isPending_iff f).mp hp
      have hpng : f.pngUrl = none := by
        cases hpu : f.pngUrl with
        | none => rfl
        | some u =>
            have hc := (h.pngIff f hf).mp (by rw [hpu]; intro hc; cases hc)
            rw [hpend] at hc
            cases hc
      rw [if_pos hp]
      cases hrc : runConversion env f.webpUrl with
      | ok png =>
          rw [finalize_ok env f png hrc]
          constructor
          · intro _
            rfl
          · intro _
            intro hc
            cases hc
      | error msg =>
          rw [finalize_err env f msg hrc]
          show f.pngUrl ≠ none ↔ Status.error = Status.converted
          rw [hpng]
          constructor
          · intro hc
            exact absurd rfl hc
          · intro hc
            cases hc
    · rw [if_neg hp]
      exact h.pngIff f hf
  · rw [hfe]
    intro f' hf'
    obtain ⟨f, hf, rfl⟩ := List.mem_map.mp hf'
    by_cases hp : isPending f = true
    · have hpend : f.status = Status.pending := (isPending_iff f).mp hp
      have herr : f.error = none := by
        cases heu : f.error with
        | none => rfl
        | some s =>
            have hc := (h.errIff f hf).mp (by rw [heu]; intro hc; cases hc)
            rw [hpend] at hc
            cases hc
      rw [if_pos hp]
      cases hrc : runConversion env f.webpUrl with
      | ok png =>
          rw [finalize_ok env f png hrc]
          show f.error ≠ none ↔ Status.converted = Status.error
          rw [herr]
          constructor
          · intro hc
            exact absurd rfl hc
          · intro hc
            cases hc
      | error msg =>
          rw [finalize_err env f msg hrc]
          constructor
          · intro _
            rfl
          · intro _
            intro hc
            cases hc
    · rw [if_neg hp]
      exact h.errIff f hf
  · rw [hfe]
    intro f' hf'
    obtain ⟨f, hf, rfl⟩ := List.mem_map.mp hf'
    by_cases hp : isPending f = true
    · rw [if_pos hp]
      rcases finalize_terminal env f with ⟨h1, -⟩ | ⟨h1, -⟩ <;> rw [h1] <;> simp
    · rw [if_neg hp]
      exact h.notConverting f hf
  · rw [hg4, hg3]
    exact h.createdEq
  · rw [hg4, hg5, hfe, hmapwebp]
    exact h.acct

theorem stInv_remove (id : Nat) (st : AppState) (h : StInv st) :
    StInv (handleRemove id st) := by
  unfold handleRemove
  cases hfind : st.files.find? (fun f => f.id == id) with
  | none => exact h
  | some f =>
      have hmem : f ∈ st.files := List.mem_of_find?_eq_some hfind
      have hsubid : List.Sublist
          ((st.files.filter (fun g => ! (g.id == id))).map (fun g => g.id))
          (st.files.map (fun g => g.id)) :=
        List.Sublist.map _ (List.filter_sublist st.files)
      have hsubw : List.Sublist
          ((st.files.filter (fun g => ! (g.id == id))).map (fun g => g.webpUrl))
          (st.files.map (fun g => g.webpUrl)) :=
        List.Sublist.map _ (List.filter_sublist st.files)
      refine ⟨?_, ?_, ?_, ?_, ?_, ?_, ?_, ?_, ?_, ?_⟩
      · intro g hg
        exact h.idBound g (List.mem_of_mem_filter hg)
      · exact h.idsNodup.sublist hsubid
      · intro g hg
        exact h.webpObj g (List.mem_of_mem_filter hg)
      · exact h.webpNodup.sublist hsubw
      · intro g hg
        exact h.pngData g (List.mem_of_mem_filter hg)
      · intro g hg
        exact h.pngIff g (List.mem_of_mem_filter hg)
      · intro g hg
        exact h.errIff g (List.mem_of_mem_filter hg)
      · intro g hg
        exact h.notConverting g (List.mem_of_mem_filter hg)
      · exact h.createdEq
      · show List.Perm st.createdUrls
          ((st.files.filter (fun g => ! (g.id == id))).map (fun g => g.webpUrl)
            ++ revokeItemUrls st.revoked f)
        have hwebp : ∃ n, f.webpUrl = Url.obj n := by
          obtain ⟨n, hn, -⟩ := h.webpObj f hmem
          exact ⟨n, hn⟩
        rw [revokeItemUrls_eq st.revoked f hwebp (h.pngData f hmem)]
        have hperm := files_perm_remove id st.files h.idsNodup f hfind
        have hw : List.Perm (st.files.map (fun g => g.webpUrl))
            (f.webpUrl :: (st.files.filter (fun g => ! (g.id == id))).map (fun g => g.webpUrl)) :=
          hperm.map _
        refine List.Perm.trans h.acct ?_
        refine List.Perm.trans (hw.append_right st.revoked) ?_
        show List.Perm
          (f.webpUrl ::
            ((st.files.filter (fun g => ! (g.id == id))).map (fun g => g.webpUrl) ++ st.revoked))
          _
        refine List.Perm.trans (List.perm_append_singleton f.webpUrl _).symm ?_
        rw [List.append_assoc]

theorem stInv_clear (st : AppState) (h : StInv st) : StInv (handleClearAll st) := by
  refine ⟨?_, ?_, ?_, ?_, ?_, ?_, ?_, ?_, ?_, ?_⟩
  · intro f hf
    cases hf
  · exact List.nodup_nil
  · intro f hf
    cases hf
  · exact List.nodup_nil
  · intro f hf
    cases hf
  · intro f hf
    cases hf
  · intro f hf
    cases hf
  · intro f hf
    cases hf
  · exact h.createdEq
  · show List.Perm st.createdUrls (([] : List FileItem).map (fun f => f.webpUrl)
      ++ st.files.foldl revokeItemUrls st.revoked)
    rw [foldl_revokeItemUrls st.files
      (fun f hf => ⟨by obtain ⟨n, hn, -⟩ := h.webpObj f hf; exact ⟨n, hn⟩, h.pngData f hf⟩)
      st.revoked]
    show List.Perm st.createdUrls (st.revoked ++ st.files.map (fun f => f.webpUrl))
    exact h.acct.trans List.perm_append_comm

theorem stInv_applyOp (st : AppState) (op : Op) (h : StInv st) : StInv (applyOp st op) := by
  cases op with
  | add sel => exact stInv_addFiles sel st h
  | convert env => exact stInv_convert env st h
  | download id => exact h
  | remove id => exact stInv_remove id st h
  | clear => exact stInv_clear st h

theorem stInv_init : StInv initState := by
  refine ⟨?_, ?_, ?_, ?_, ?_, ?_, ?_, ?_, rfl, ?_⟩
  · intro f hf
    cases hf
  · exact List.nodup_nil
  · intro f hf
    cases hf
  · exact List.nodup_nil
  · intro f hf
    cases hf
  · intro f hf
    cases hf
  · intro f hf
    cases hf
  · intro f hf
    cases hf
  · exact List.Perm.nil

theorem stInv_foldl : ∀ (ops : List Op) (st : AppState), StInv st →
    StInv (ops.foldl applyOp st) := by
  intro ops
  induction ops with
  | nil => intro st h; exact h
  | cons op rest ih =>
      intro st h
      exact ih (applyOp st op) (stInv_applyOp st op h)

theorem stInv_runOps (ops : List Op) : StInv (runOps ops) :=
  stInv_foldl ops initState stInv_init

/-- C2: in every reachable batch state — after any sequence of `addFiles`,
`convertAll`, `download`, `remove`, `clearAll` from a fresh session — every
item's output handle is non-null exactly when its status is `converted`, and
its error message is present exactly when its status is `error`. -/
theorem c2_invariant (ops : List Op) :
    ∀ f ∈ (runOps ops).files,
      (f.pngUrl ≠ none ↔ f.status = Status.converted) ∧
      (f.error ≠ none ↔ f.status = Status.error) := by
  intro f hf
  exact ⟨(stInv_runOps ops).pngIff f hf, (stInv_runOps ops).errIff f hf⟩

/-- C2 witness: the converted item reached by add-then-convert satisfies
both presence equivalences. -/
theorem c2_invariant_witness :
    (wItem.pngUrl ≠ none ↔ wItem.status = Status.converted) ∧
    (wItem.error ≠ none ↔ wItem.status = Status.error) :=
  c2_invariant c5ops wItem (by decide)

/-- C5 counterexample: in the reachable state with one converted item,
`remove` grows the release log by exactly one entry, not the two the claim
demands — the converted output is a data URL, not an object-URL registry
entry, so its revoke call releases nothing. -/
theorem c5_remove_counterexample :
    ((runOps c5ops).files.map (fun f => f.status) = [Status.converted]) ∧
    (countUrl (Url.obj 0) (runOps c5ops).createdUrls = 1) ∧
    ((handleRemove 0 (runOps c5ops)).revoked.length = (runOps c5ops).revoked.length + 1) ∧
    ¬ ((handleRemove 0 (runOps c5ops)).revoked.length = (runOps c5ops).revoked.length + 2) := by
  decide

/-- C5 (amended): every registry entry ever created — all of them are
created by `addFiles`, since a successful conversion produces a data URL and
hence no registry entry — is released exactly once, by `remove`, `clearAll`
or end-of-session teardown, and is never released twice in any reachable
state; `remove(id)` of any present item (pending, error, or converted alike)
releases exactly one registry entry, the source object URL: for a converted
item the additional revoke call on its output is a no-op on the registry. -/
theorem c5_registry (ops : List Op) :
    ((teardown (runOps ops)).createdUrls = (runOps ops).createdUrls) ∧
    (∀ u ∈ (runOps ops).createdUrls, countUrl u (teardown (runOps ops)).revoked = 1) ∧
    (∀ u : Url, countUrl u (runOps ops).revoked ≤ 1) ∧
    (∀ (id : Nat) (f : FileItem),
       (runOps ops).files.find? (fun g => g.id == id) = some f →
       (handleRemove id (runOps ops)).revoked = (runOps ops).revoked ++ [f.webpUrl]) := by
  have h := stInv_runOps ops
  have hfold : (runOps ops).files.foldl revokeItemUrls (runOps ops).revoked
      = (runOps ops).revoked ++ (runOps ops).files.map (fun f => f.webpUrl) :=
    foldl_revokeItemUrls (runOps ops).files
      (fun f hf => ⟨by obtain ⟨n, hn, -⟩ := h.webpObj f hf; exact ⟨n, hn⟩, h.pngData f hf⟩)
      (runOps ops).revoked
  have hcnodup : (runOps ops).createdUrls.Nodup := by
    rw [h.createdEq]
    exact objRange_nodup _ _
  have hcount : ∀ u : Url, countUrl u (runOps ops).createdUrls =
      countUrl u ((runOps ops).files.map (fun f => f.webpUrl))
        + countUrl u (runOps ops).revoked := by
    intro u
    rw [countUrl_perm u _ _ h.acct, countUrl_append]
  refine ⟨rfl, ?_, ?_, ?_⟩
  · intro u hu
    show countUrl u ((runOps ops).files.foldl revokeItemUrls (runOps ops).revoked) = 1
    rw [hfold, countUrl_append]
    have h1 : countUrl u (runOps ops).createdUrls = 1 :=
      countUrl_eq_one_of_nodup_mem u _ hcnodup hu
    have h2 := hcount u
    omega
  · intro u
    have h1 : countUrl u (runOps ops).createdUrls ≤ 1 :=
      countUrl_le_one_of_nodup u _ hcnodup
    have h2 := hcount u
    omega
  · intro id f hfind
    have hmem : f ∈ (runOps ops).files := List.mem_of_find?_eq_some hfind
    unfold handleRemove
    rw [hfind]
    show revokeItemUrls (runOps ops).revoked f = (runOps ops).revoked ++ [f.webpUrl]
    exact revokeItemUrls_eq (runOps ops).revoked f
      (by obtain ⟨n, hn, -⟩ := h.webpObj f hmem; exact ⟨n, hn⟩)
      (h.pngData f hmem)

/-- C5 witness: after add, successful convert, and teardown, the single
created registry entry has been released exactly once. -/
theorem c5_registry_witness :
    countUrl (Url.obj 0) (teardown (runOps c5ops)).revoked = 1 :=
  (c5_registry c5ops).2.1 (Url.obj 0) (by decide)
